import Mathlib

/-!
Verification of the org-x parsing / repository / monitoring core
(`src-tauri/src/orgmode/`) against its natural-language specification.

Shallow embedding conventions:
* Rust `String` / `&str` values are modelled as `List Char` (UTF-8 byte
  order on `String` comparison agrees with code-point order, so
  lexicographic `Char` order is exact).
* `HashMap<String, String>` values are modelled as association lists in
  insertion order; `HashMap::insert` replaces the value of an existing key
  in place.
* The 64-bit `DefaultHasher` digests (etags) are modelled by the exact
  sequence of fields fed to the hasher, injectively encoded as a structure.
  Two digests are modelled equal iff the hashed input streams are equal;
  this is the standard collision-free abstraction of a hash.
* Nondeterministic inputs of the code (UUID generation via
  `Uuid::new_v4`, wall-clock timestamps via `Utc::now`) are passed in
  explicitly (a numeric seed for the UUID supply, a string for the clock).
* The `orgize` crate is an external collaborator (the spec's §1 puts the
  text-extraction detail out of scope).  Its keyword events and headline
  title parsing are modelled at line level, as documented on each
  definition; everything from this repository's own sources is transcribed
  directly.
-/

/-- Rust strings are modelled as lists of characters. -/
abbrev Str := List Char

/-- Rust `char::is_whitespace` (on the characters appearing here). -/
def isWs (c : Char) : Bool := c.isWhitespace

/-- Rust `str::trim_start`. -/
def trimStart (s : Str) : Str := s.dropWhile isWs

/-- Rust `str::trim_end`. -/
def trimEnd (s : Str) : Str := (s.reverse.dropWhile isWs).reverse

/-- Rust `str::trim`. -/
def trim (s : Str) : Str := trimEnd (trimStart s)

/-- Rust `str::starts_with` (string pattern). -/
def startsWith (pat s : Str) : Bool := pat.isPrefixOf s

/-- Rust `str::ends_with` (string pattern). -/
def endsWith (pat s : Str) : Bool := pat.isSuffixOf s

/-- Rust `str::starts_with` with a single-character pattern. -/
def startsWithChar (c : Char) (s : Str) : Bool := s.head? = some c

/-- Rust `str::ends_with` with a single-character pattern. -/
def endsWithChar (c : Char) (s : Str) : Bool := s.getLast? = some c

/-- Rust `str::trim_matches(c)`: strips every leading and trailing
occurrence of the character `c`. -/
def trimMatchesChar (c : Char) (s : Str) : Str :=
  ((s.dropWhile (· = c)).reverse.dropWhile (· = c)).reverse

/-- Rust `str::split(c)`: splits at every occurrence of `c`; the result is
never empty, and empty segments are kept (`"".split(c)` is `[""]`). -/
def splitOnChar (c : Char) : Str → List Str
  | [] => [[]]
  | x :: xs =>
    let r := splitOnChar c xs
    if x = c then [] :: r
    else
      match r with
      | [] => [[x]]
      | y :: ys => (x :: y) :: ys

/-- Rust `str::split_once(c)`: splits at the first occurrence of `c`,
returning the parts before and after it, or `none` if `c` does not occur. -/
def splitOnceChar (c : Char) : Str → Option (Str × Str)
  | [] => none
  | x :: xs =>
    if x = c then some ([], xs)
    else (splitOnceChar c xs).map (fun p => (x :: p.1, p.2))

/-- Helper for `splitWhitespace`: `cur` holds the current token reversed. -/
def splitWsAux : Str → Str → List Str
  | [], cur => if cur = [] then [] else [cur.reverse]
  | x :: xs, cur =>
    if isWs x then
      if cur = [] then splitWsAux xs [] else cur.reverse :: splitWsAux xs []
    else splitWsAux xs (x :: cur)

/-- Rust `str::split_whitespace`: whitespace-separated tokens, no empties. -/
def splitWhitespace (s : Str) : List Str := splitWsAux s []

/-- Helper for `linesOf`: `cur` holds the current line reversed.  On a
newline the line is emitted with one trailing carriage return stripped,
matching Rust `str::lines`. -/
def linesAux : Str → Str → List Str
  | [], cur => if cur = [] then [] else [cur.reverse]
  | x :: xs, cur =>
    if x = '\n' then
      (if cur.head? = some '\r' then cur.tail else cur).reverse :: linesAux xs []
    else linesAux xs (x :: cur)

/-- Rust `str::lines`: splits on newlines; a trailing newline produces no
final empty line, and `""` has no lines. -/
def linesOf (s : Str) : List Str := linesAux s []

/-- ASCII lower-casing of one character (Rust `to_ascii_lowercase`). -/
def asciiLower (c : Char) : Char :=
  if 'A' ≤ c ∧ c ≤ 'Z' then Char.ofNat (c.toNat + 32) else c

/-- ASCII upper-casing of one character (Rust `to_ascii_uppercase`). -/
def asciiUpper (c : Char) : Char :=
  if 'a' ≤ c ∧ c ≤ 'z' then Char.ofNat (c.toNat - 32) else c

/-- Rust `str::eq_ignore_ascii_case`. -/
def eqIgnoreAsciiCase (a b : Str) : Bool := a.map asciiLower = b.map asciiLower

/-- Rust `str::to_uppercase` (ASCII fragment, as used on keyword keys). -/
def toUpperStr (s : Str) : Str := s.map asciiUpper

/-- Joins strings with a separating character (used only to state the
round-trip property of filetags values). -/
def intercalateChar (c : Char) : List Str → Str
  | [] => []
  | [t] => t
  | t :: rest => t ++ c :: intercalateChar c rest

/-- Strict lexicographic byte order on strings, i.e. Rust `String::cmp`
restricted to "less than" (UTF-8 byte order equals code-point order). -/
def strLt : Str → Str → Bool
  | _, [] => false
  | [], _ :: _ => true
  | a :: as, b :: bs => a.val < b.val || (a = b && strLt as bs)

/-- Decimal rendering of a natural number, for the modelled UUID supply. -/
def natToStr (n : Nat) : Str := (Nat.repr n).toList

/-- Association-list lookup, modelling `HashMap::get`. -/
def assocGet {α : Type} (k : Str) : List (Str × α) → Option α
  | [] => none
  | (k', v) :: rest => if k' = k then some v else assocGet k rest

/-- Association-list insert, modelling `HashMap::insert`: replaces the
value of an existing key, otherwise appends. -/
def assocInsert {α : Type} (k : Str) (v : α) : List (Str × α) → List (Str × α)
  | [] => [(k, v)]
  | (k', v') :: rest =>
    if k' = k then (k, v) :: rest else (k', v') :: assocInsert k v rest

/-- Membership test for a string key, modelling `HashMap::contains_key`. -/
def assocHas {α : Type} (k : Str) (m : List (Str × α)) : Bool :=
  (assocGet k m).isSome

/-! ## Data model (`datetime.rs`, `timestamp.rs`, `planning.rs`, `todo.rs`) -/

/-- Mirror of `OrgDatetime` (datetime.rs): calendar date with day name and
optional time of day. -/
structure OrgDatetime where
  year : Nat
  month : Nat
  day : Nat
  dayname : Str
  hour : Option Nat
  minute : Option Nat
deriving DecidableEq

/-- Mirror of `OrgTimestamp` (timestamp.rs): org-mode active/inactive,
possibly ranged timestamps with optional repeater and delay, or a diary
entry. -/
inductive OrgTimestamp where
  | active (start : OrgDatetime) (repeater : Option Str) (delay : Option Str)
  | inactive (start : OrgDatetime) (repeater : Option Str) (delay : Option Str)
  | activeRange (start : OrgDatetime) (stop : OrgDatetime)
      (repeater : Option Str) (delay : Option Str)
  | inactiveRange (start : OrgDatetime) (stop : OrgDatetime)
      (repeater : Option Str) (delay : Option Str)
  | diary (value : Str)
deriving DecidableEq

/-- Mirror of `OrgPlanning` (planning.rs). -/
structure OrgPlanning where
  deadline : Option OrgTimestamp
  scheduled : Option OrgTimestamp
  closed : Option OrgTimestamp
deriving DecidableEq

/-- Mirror of `StateType` (todo.rs). -/
inductive StateType where
  | active
  | closed
deriving DecidableEq

/-- Mirror of `TodoStatus` (todo.rs). -/
structure TodoStatus where
  keyword : Str
  state_type : StateType
  order : Nat
  color : Option Str
deriving DecidableEq

/-- Mirror of `TodoSequence` (todo.rs). -/
structure TodoSequence where
  name : Str
  statuses : List TodoStatus
deriving DecidableEq

/-- Mirror of `TodoConfiguration` (todo.rs). -/
structure TodoConfiguration where
  sequences : List TodoSequence
  default_sequence : Str
deriving DecidableEq

/-- Mirror of `TodoConfiguration::default` (todo.rs): the fixed five-status
default sequence. -/
def TodoConfiguration.defaultConfig : TodoConfiguration :=
  { sequences :=
      [{ name := "default".toList
         statuses :=
           [{ keyword := "TODO".toList, state_type := .active, order := 0
              color := some "#ff0000".toList }
            , { keyword := "IN-PROGRESS".toList, state_type := .active
                order := 10, color := some "#ff9900".toList }
            , { keyword := "WAITING".toList, state_type := .active
                order := 20, color := some "#ffff00".toList }
            , { keyword := "DONE".toList, state_type := .closed, order := 100
                color := some "#00ff00".toList }
            , { keyword := "CANCELLED".toList, state_type := .closed
                order := 110, color := some "#999999".toList }] }]
    default_sequence := "default".toList }

/-- Mirror of `TodoConfiguration::from_org_config` (todo.rs): a placeholder
in the source that ignores its argument and returns the default. -/
def TodoConfiguration.from_org_config (_config_lines : List Str) :
    TodoConfiguration :=
  TodoConfiguration.defaultConfig

/-! ## Title and headline model (`title.rs`, `headline.rs`) -/

/-- Mirror of `OrgTitle` (title.rs). -/
structure OrgTitle where
  raw : Str
  level : Nat
  priority : Option Char
  tags : List Str
  todo_keyword : Option Str
  properties : List (Str × Str)
  planning : Option OrgPlanning
deriving DecidableEq

/-- Hasher input of `impl Hash for OrgTitle` (title.rs): raw text,
priority, tags, todo keyword, the properties sorted by key, and planning.
The source's `level` field is not fed to the hasher. -/
structure TitleFingerprint where
  raw : Str
  priority : Option Char
  tags : List Str
  todo_keyword : Option Str
  sortedProperties : List (Str × Str)
  planning : Option OrgPlanning
deriving DecidableEq

/-- Hasher input of `generate_headline_etag` (utils.rs): the headline's own
title (via the `OrgTitle` hash), content, tags, todo keyword, priority and
properties, then for each direct child only that child's title and id.
This structure models the `DefaultHasher` digest injectively. -/
structure HeadlineFingerprint where
  title : TitleFingerprint
  content : Str
  tags : List Str
  todo_keyword : Option Str
  priority : Option Str
  properties : List (Str × Str)
  childSummaries : List (TitleFingerprint × Str)
deriving DecidableEq

/-- Mirror of `OrgHeadline` (headline.rs).  The `etag` field holds the
modelled digest of `generate_headline_etag` (see `HeadlineFingerprint`),
`none` standing for the source's initial empty string. -/
structure OrgHeadline where
  id : Str
  document_id : Str
  level : Nat
  title : OrgTitle
  tags : List Str
  todo_keyword : Option Str
  priority : Option Str
  content : Str
  children : List OrgHeadline
  properties : List (Str × Str)
  etag : Option HeadlineFingerprint

/-- Mirror of `OrgHeadline::new` (headline.rs): keeps the headline-level
`tags`, `todo_keyword` and `priority` copies in sync with the title. -/
def OrgHeadline.make (id document_id : Str) (level : Nat) (title : OrgTitle)
    (content : Str) : OrgHeadline :=
  { id := id
    document_id := document_id
    level := level
    tags := title.tags
    todo_keyword := title.todo_keyword
    priority := title.priority.map (fun p => [p])
    title := title
    content := content
    children := []
    properties := []
    etag := none }

/-- Insertion step of a stable sort by key (Rust `sort_by` on the first
component): an entry moves left only past strictly greater keys. -/
def insertByKey (x : Str × Str) : List (Str × Str) → List (Str × Str)
  | [] => [x]
  | y :: ys => if strLt x.1 y.1 then x :: y :: ys else y :: insertByKey x ys

/-- Stable sort of property pairs by key, modelling the
`prop_vec.sort_by(|a, b| a.0.cmp(b.0))` step of `impl Hash for OrgTitle`. -/
def sortProps (ps : List (Str × Str)) : List (Str × Str) :=
  ps.foldr insertByKey []

/-- Hasher input stream of `impl Hash for OrgTitle` (title.rs). -/
def titleHashInput (t : OrgTitle) : TitleFingerprint :=
  { raw := t.raw
    priority := t.priority
    tags := t.tags
    todo_keyword := t.todo_keyword
    sortedProperties := sortProps t.properties
    planning := t.planning }

/-- Mirror of `generate_headline_etag` (utils.rs): hashes the headline's
title, content, tags, todo keyword, priority and properties, and for each
direct child its title and id (deliberately not the child's etag). -/
def generate_headline_etag (h : OrgHeadline) : HeadlineFingerprint :=
  { title := titleHashInput h.title
    content := h.content
    tags := h.tags
    todo_keyword := h.todo_keyword
    priority := h.priority
    properties := h.properties
    childSummaries := h.children.map (fun c => (titleHashInput c.title, c.id)) }

/-- Mirror of `generate_document_etag` (utils.rs): the document etag is a
hash of the full raw content; the digest is modelled by its preimage
(injective hash abstraction). -/
def generate_document_etag (content : Str) : Str := content

/-! ## Headline hierarchy builder (`parser.rs::build_headline_hierarchy`)

The source walks the flat list keeping a stack of currently open
ancestors; each stack item records the opened headline's level and a
navigable handle to its position inside the forest being built (root index
or index path within an ancestor's children), because children are pushed
into the forest in place at the moment the headline is read.  The
embedding keeps the same stack discipline but defers the attachment: a
frame carries the open headline together with the children accumulated for
it so far, and the finished headline is written into its parent (or the
root list) at the moment the frame is popped.  A headline's child list is
only ever extended while its frame is on the stack and frames close in
LIFO order, so the deferred attachment produces exactly the same forest as
the source's in-place pushes. -/

/-- One entry of the builder's stack of open ancestors: the headline as it
was read, the level it was opened at, and the children collected for it so
far. -/
structure Frame where
  headline : OrgHeadline
  level : Nat
  newChildren : List OrgHeadline

/-- Finishes an open frame: the collected children are appended to the
headline's children list (mirroring the source's in-place pushes). -/
def closeFrame (f : Frame) : OrgHeadline :=
  { f.headline with children := f.headline.children ++ f.newChildren }

/-- Delivers a finished headline to the new top of the stack, or to the
root list when the stack is empty. -/
def attachClosed (stack : List Frame) (roots : List OrgHeadline)
    (h : OrgHeadline) : List Frame × List OrgHeadline :=
  match stack with
  | [] => ([], roots ++ [h])
  | g :: rest => ({ g with newChildren := g.newChildren ++ [h] } :: rest, roots)

/-- Mirror of the source's pop loop: `while !stack.is_empty() &&
stack.last().level >= level { stack.pop() }`.  All frames whose level is
`≥ lvl` close from the top down; each closing frame is delivered to the
frame below it, and the last one to the surviving stack or the root
list. -/
def popGE (lvl : Nat) (stack : List Frame) (roots : List OrgHeadline) :
    List Frame × List OrgHeadline :=
  let toClose := stack.takeWhile (fun f => lvl ≤ f.level)
  let keep := stack.dropWhile (fun f => lvl ≤ f.level)
  match toClose with
  | [] => (stack, roots)
  | f :: fs =>
    let closed := fs.foldl
      (fun acc g => closeFrame { g with newChildren := g.newChildren ++ [acc] })
      (closeFrame f)
    attachClosed keep roots closed

/-- One iteration of the builder's `for headline in all_headlines` loop:
close deeper-or-equal scopes, then open a frame for the incoming headline
(the source pushes the headline into the forest here; the embedding defers
that to the frame's close). -/
def stepH (st : List Frame × List OrgHeadline) (h : OrgHeadline) :
    List Frame × List OrgHeadline :=
  let st' := popGE h.title.level st.1 st.2
  (⟨h, h.title.level, []⟩ :: st'.1, st'.2)

/-- Runs the builder's loop over the remaining input. -/
def processAll (st : List Frame × List OrgHeadline) (hs : List OrgHeadline) :
    List Frame × List OrgHeadline :=
  hs.foldl stepH st

/-- After the loop, every still-open frame closes (level 0 is below every
headline level, so `popGE 0` drains the stack); the result is the
completed root list. -/
def finishRun (st : List Frame × List OrgHeadline) : List OrgHeadline :=
  (popGE 0 st.1 st.2).2

/-- Hierarchy construction of `build_headline_hierarchy` (parser.rs),
before the etag pass. -/
def buildForest (hs : List OrgHeadline) : List OrgHeadline :=
  finishRun (processAll ([], []) hs)

mutual

/-- Mirror of `generate_etags_recursively` (parser.rs): children first
(post-order), then this headline's etag over the updated node. -/
def generate_etags_recursively : OrgHeadline → OrgHeadline
  | ⟨id, did, lvl, t, tg, kw, pr, ct, children, props, _⟩ =>
    let h' : OrgHeadline :=
      ⟨id, did, lvl, t, tg, kw, pr, ct, generateEtagsChildren children, props, none⟩
    { h' with etag := some (generate_headline_etag h') }

/-- Children loop of `generate_etags_recursively`. -/
def generateEtagsChildren : List OrgHeadline → List OrgHeadline
  | [] => []
  | c :: cs => generate_etags_recursively c :: generateEtagsChildren cs

end

/-- Mirror of `build_headline_hierarchy` (parser.rs): build the forest,
then generate etags for every root recursively. -/
def build_headline_hierarchy (flat_headlines : List OrgHeadline) :
    List OrgHeadline :=
  (buildForest flat_headlines).map generate_etags_recursively

mutual

/-- Parent-level invariant of the spec (§3): every child's title level is
strictly greater than its parent's, recursively. -/
def levelInvB : OrgHeadline → Bool
  | ⟨_, _, _, t, _, _, _, _, children, _, _⟩ => levelInvChildren t.level children

/-- Children part of `levelInvB`. -/
def levelInvChildren (lvl : Nat) : List OrgHeadline → Bool
  | [] => true
  | c :: cs => (decide (lvl < c.title.level)) && levelInvB c && levelInvChildren lvl cs

end

/-- Specification-side hierarchy builder, written from the claim's words:
each headline becomes the parent of the maximal following span of strictly
deeper headlines (so every headline nests under the nearest preceding
headline with a strictly smaller level), and the first shallower-or-equal
successor starts the next sibling/root. -/
def nestBySpan : List OrgHeadline → List OrgHeadline
  | [] => []
  | h :: rest =>
    let inner := rest.takeWhile (fun g => h.title.level < g.title.level)
    let outer := rest.dropWhile (fun g => h.title.level < g.title.level)
    { h with children := h.children ++ nestBySpan inner } :: nestBySpan outer
termination_by l => l.length
decreasing_by
  · exact Nat.lt_succ_of_le (List.Sublist.length_le (List.takeWhile_sublist _))
  · exact Nat.lt_succ_of_le (List.Sublist.length_le (List.dropWhile_sublist _))

/-! ## TODO keyword declaration scan (`parser.rs::extract_todo_keywords_from_content`) -/

/-- Keyword tokens of one segment of a `#+TODO:` declaration: the
whitespace-separated words, each cut at its first parenthesis
(`word.split('(').next()`), empty results discarded. -/
def todoWords (seg : Str) : List Str :=
  (splitWhitespace seg).filterMap (fun word =>
    match (splitOnChar '(' word).head? with
    | some keyword => if keyword ≠ [] then some keyword else none
    | none => none)

/-- One iteration body of the source's line scan: a trimmed line starting
with `#+TODO:` or `#+SEQ_TODO:` whose value (text after the first colon,
trimmed) contains a pipe yields the two parsed keyword segments; any other
line yields nothing (lines with the marker but no pipe are skipped, not
consumed). -/
def todoDeclSides (line : Str) : Option (List Str × List Str) :=
  if startsWith "#+TODO:".toList line || startsWith "#+SEQ_TODO:".toList line then
    let definition :=
      match splitOnceChar ':' line with
      | some p => trim p.2
      | none => []
    match splitOnceChar '|' definition with
    | some (active, closed) => some (todoWords active, todoWords closed)
    | none => none
  else none

/-- The source's `for line in content.lines()` loop with its mutable
`active_keywords`/`closed_keywords` state: the first declaration line with
a pipe replaces each side that parsed to at least one keyword and breaks;
all other lines leave the state unchanged. -/
def todoLoop : List Str → List Str → List Str → List Str × List Str
  | [], act, clo => (act, clo)
  | l :: ls, act, clo =>
    match todoDeclSides (trim l) with
    | some (aw, cw) => ((if aw ≠ [] then aw else act), (if cw ≠ [] then cw else clo))
    | none => todoLoop ls act clo

/-- Mirror of `extract_todo_keywords_from_content` (parser.rs): scans the
content for a `#+TODO:`/`#+SEQ_TODO:` declaration, starting from the
defaults `TODO` / `DONE`. -/
def extract_todo_keywords_from_content (content : Str) : List Str × List Str :=
  todoLoop (linesOf content) ["TODO".toList] ["DONE".toList]

/-! ## Keyword events (modelled `orgize` layer) -/

/-- Modelled from the external `orgize` library (out of scope per spec §1):
a keyword event for a line of the form `#+KEY: value`, with the value
trimmed.  Lines not of this shape produce no keyword. -/
def keywordOfLine (l : Str) : Option (Str × Str) :=
  let t := trimStart l
  if startsWith "#+".toList t then
    match splitOnceChar ':' (t.drop 2) with
    | some (k, v) => some (k, trim v)
    | none => none
  else none

/-- Modelled from the external `orgize` library: the keyword events of a
document in order, as consumed by the `org.iter()` loops of parser.rs. -/
def keywordsOf (content : Str) : List (Str × Str) :=
  (linesOf content).filterMap keywordOfLine

/-- Mirror of `extract_document_title` (parser.rs): value of the first
keyword whose key equals `TITLE` up to ASCII case. -/
def extract_document_title (content : Str) : Option Str :=
  ((keywordsOf content).find? (fun kv => eqIgnoreAsciiCase kv.1 "TITLE".toList)).map
    (fun kv => kv.2)

/-- Value-level mirror of `extract_filetags` (parser.rs, lines 200-205):
a trimmed value with both a leading and a trailing colon is stripped of
all outer colons and split at colons; anything else contributes no tags. -/
def filetags_from_value (v : Str) : List Str :=
  let tags_str := trim v
  if startsWithChar ':' tags_str && endsWithChar ':' tags_str then
    splitOnChar ':' (trimMatchesChar ':' tags_str)
  else []

/-- Mirror of `extract_filetags` (parser.rs): every `FILETAGS` keyword
(key compared up to ASCII case) extends the tag list with its parsed
value. -/
def extract_filetags (content : Str) : List Str :=
  (keywordsOf content).foldl
    (fun acc kv =>
      if eqIgnoreAsciiCase kv.1 "FILETAGS".toList then acc ++ filetags_from_value kv.2
      else acc)
    []

/-- Mirror of `extract_category` (parser.rs): value of the first keyword
whose key equals `CATEGORY` up to ASCII case. -/
def extract_category (content : Str) : Option Str :=
  ((keywordsOf content).find? (fun kv => eqIgnoreAsciiCase kv.1 "CATEGORY".toList)).map
    (fun kv => kv.2)

/-- Mirror of `extract_document_properties` (parser.rs): every keyword
whose upper-cased key is none of `TITLE`, `FILETAGS`, `CATEGORY`, `TODO`
is inserted into the property map. -/
def extract_document_properties (content : Str) : List (Str × Str) :=
  (keywordsOf content).foldl
    (fun props kv =>
      if toUpperStr kv.1 = "TITLE".toList ∨ toUpperStr kv.1 = "FILETAGS".toList ∨
          toUpperStr kv.1 = "CATEGORY".toList ∨ toUpperStr kv.1 = "TODO".toList then
        props
      else assocInsert kv.1 kv.2 props)
    []

/-- Mirror of `get_color_for_active_status` (parser.rs). -/
def get_color_for_active_status (index : Nat) : Str :=
  match index with
  | 0 => "#ff0000".toList
  | 1 => "#ff9900".toList
  | 2 => "#ffff00".toList
  | 3 => "#0099ff".toList
  | 4 => "#9966cc".toList
  | _ => "#0099ff".toList

/-- Mirror of `get_color_for_closed_status` (parser.rs). -/
def get_color_for_closed_status (index : Nat) : Str :=
  match index with
  | 0 => "#00ff00".toList
  | 1 => "#999999".toList
  | 2 => "#666666".toList
  | _ => "#666666".toList

/-- Mirror of `extract_todo_configuration` (parser.rs): `TODO` keyword
lines take precedence (handled by the placeholder
`TodoConfiguration::from_org_config`); otherwise the parse-config keyword
lists are turned into one `default` sequence with indexed orders and
palette colors; `none` only when both lists are empty. -/
def extract_todo_configuration (content : Str)
    (todo_keywords : List Str × List Str) : Option TodoConfiguration :=
  let todo_lines :=
    ((keywordsOf content).filter (fun kv => eqIgnoreAsciiCase kv.1 "TODO".toList)).map
      (fun kv => kv.2)
  if todo_lines ≠ [] then some (TodoConfiguration.from_org_config todo_lines)
  else
    let active := todo_keywords.1
    let closed := todo_keywords.2
    if active = [] ∧ closed = [] then none
    else
      let statuses :=
        (active.enum.map (fun p =>
          TodoStatus.mk p.2 .active p.1 (some (get_color_for_active_status p.1)))) ++
        (closed.enum.map (fun p =>
          TodoStatus.mk p.2 .closed (active.length + p.1)
            (some (get_color_for_closed_status p.1))))
      some { sequences := [{ name := "default".toList, statuses := statuses }]
             default_sequence := "default".toList }

/-! ## Headline extraction (modelled `orgize` layer + `parser.rs`)

`extract_headlines` iterates `org.headlines()` of the external `orgize`
parse and converts each to an `OrgHeadline` via `extract_headline`; the
flat list then goes through the hierarchy builder.  The `orgize` side
(recognising headline lines and parsing a title line into keyword,
priority, tags and raw text under the configured TODO keywords) is
modelled at line level below; the conversions on this repository's side
are transcribed from parser.rs. -/

/-- Number of leading stars of a line. -/
def starCount (l : Str) : Nat := (l.takeWhile (· = '*')).length

/-- Modelled from the external `orgize` library: a headline line is one or
more stars followed by a space. -/
def isHeadlineLine (l : Str) : Bool :=
  starCount l > 0 && (l.drop (starCount l)).head? = some ' '

/-- Modelled from the external `orgize` library: the trailing tag group of
a title line (a last whitespace-separated chunk of the form `:a:b:`),
returning the remaining text and the tags. -/
def parseTags (rest : Str) : Str × List Str :=
  let t := trimEnd rest
  let chunk := (t.reverse.takeWhile (fun c => !isWs c)).reverse
  if 2 ≤ chunk.length ∧ startsWithChar ':' chunk ∧ endsWithChar ':' chunk then
    ((trimEnd (t.take (t.length - chunk.length))),
      (splitOnChar ':' (trimMatchesChar ':' chunk)).filter (· ≠ []))
  else (t, [])

/-- Modelled from the external `orgize` library: the leading token of a
title is a TODO keyword exactly when it is one of the configured
keywords. -/
def takeKeyword (kws : List Str) (s : Str) : Option Str × Str :=
  let s' := trimStart s
  let tok := s'.takeWhile (fun c => !isWs c)
  if tok ≠ [] ∧ kws.contains tok then (some tok, trimStart (s'.drop tok.length))
  else (none, s')

/-- Modelled from the external `orgize` library: an optional
`[#X]` priority cookie after the keyword. -/
def takePriority (s : Str) : Option Char × Str :=
  match s with
  | '[' :: '#' :: p :: ']' :: rest => (some p, trimStart rest)
  | _ => (none, s)

/-- Modelled from the external `orgize` library: parse a title line body
(after the stars) into an `OrgTitle` under the configured TODO keywords.
PROPERTIES drawers are not modelled (treated as body text), so title
properties are empty, as for a drawer-less document. -/
def parseTitleLine (kws : List Str) (lvl : Nat) (lineRest : Str) : OrgTitle :=
  let pt := parseTags lineRest
  let pk := takeKeyword kws pt.1
  let pp := takePriority pk.2
  { raw := trimEnd pp.2
    level := lvl
    priority := pp.1
    tags := pt.2
    todo_keyword := pk.1
    properties := []
    planning := none }

/-- Modelled from the external `orgize` library: the flat sequence of
headline lines of a document, each with its star count and title text. -/
def headlineLines (content : Str) : List (Nat × Str) :=
  (linesOf content).filterMap (fun l =>
    if isHeadlineLine l then some (starCount l, l.drop (starCount l + 1)) else none)

/-- Modelled UUID supply standing for `Uuid::new_v4` (injective in the
counter). -/
def uuidOf (n : Nat) : Str := "uuid-".toList ++ natToStr n

/-- Mirror of `extract_headline_content` (parser.rs): the simplified
extraction returns the literal text `Content for '<raw title>'`. -/
def extract_headline_content (t : OrgTitle) : Str :=
  "Content for ".toList ++ [Char.ofNat 39] ++ t.raw ++ [Char.ofNat 39]

/-- Mirror of `extract_headline_properties` (parser.rs): the title's
properties, plus a `CREATED` wall-clock entry when absent. -/
def extract_headline_properties (t : OrgTitle) (now : Str) : List (Str × Str) :=
  let props := t.properties
  if assocHas "CREATED".toList props then props
  else props ++ [("CREATED".toList, now)]

/-- Mirror of `extract_headline` (parser.rs): a fresh UUID, an empty
document id (filled in later), the parsed title with its backward-
compatibility copies (`OrgHeadline::new` keeps `tags`, `todo_keyword` and
`priority` in sync with the title), the simplified content, the headline
properties, no children (built by the hierarchy pass) and no etag yet. -/
def extract_headline (kws : List Str) (seed : Nat) (now : Str) (idx lvl : Nat)
    (titleRest : Str) : OrgHeadline :=
  let t := parseTitleLine kws lvl titleRest
  { id := uuidOf (seed + idx)
    document_id := []
    level := lvl
    title := t
    tags := t.tags
    todo_keyword := t.todo_keyword
    priority := t.priority.map (fun p => [p])
    content := extract_headline_content t
    children := []
    properties := extract_headline_properties t now
    etag := none }

/-- Mirror of `extract_headlines` (parser.rs): flat extraction followed by
the hierarchy builder (which also generates the etags). -/
def extract_headlines (content : Str) (kws : List Str) (seed : Nat)
    (now : Str) : List OrgHeadline :=
  build_headline_hierarchy
    ((headlineLines content).enum.map (fun p =>
      extract_headline kws seed now p.1 p.2.1 p.2.2))

/-- Mirror of `update_headline_document_ids` (parser.rs): writes the
document id into every headline recursively. -/
def updateDocIds (document_id : Str) : List OrgHeadline → List OrgHeadline
  | [] => []
  | ⟨id, _, lvl, t, tg, kw, pr, ct, children, props, etag⟩ :: rest =>
    ⟨id, document_id, lvl, t, tg, kw, pr, ct, updateDocIds document_id children,
      props, etag⟩ :: updateDocIds document_id rest

/-! ## Document model and parser driver (`document.rs`, `parser.rs`) -/

/-- Mirror of `OrgError` (parser.rs). -/
inductive OrgError where
  | parseError (msg : Str)
  | fileError (msg : Str)
deriving DecidableEq

/-- Mirror of `OrgDocument` (document.rs).  `parsed_at` carries the
wall-clock string passed into the parse (see the header conventions). -/
structure OrgDocument where
  id : Str
  title : Str
  content : Str
  headlines : List OrgHeadline
  filetags : List Str
  parsed_at : Str
  file_path : Str
  properties : List (Str × Str)
  category : Str
  etag : Str
  todo_config : Option TodoConfiguration

/-- Mirror of `parse_org_document` (parser.rs): extracts the TODO keyword
configuration, document metadata (with defaults for absent declarations),
the headline tree, assigns a fresh UUID document id, stamps it into every
headline, and always returns `Ok` — no step can fail. -/
def parse_org_document (content : Str) (file_path : Option Str) (seed : Nat)
    (now : Str) : Except OrgError OrgDocument :=
  let todo_keywords := extract_todo_keywords_from_content content
  let kws := todo_keywords.1 ++ todo_keywords.2
  let title := (extract_document_title content).getD ("Untitled Document".toList)
  let filetags := extract_filetags content
  let category := (extract_category content).getD []
  let properties := extract_document_properties content
  let todo_config := extract_todo_configuration content todo_keywords
  let headlines := extract_headlines content kws seed now
  let id := uuidOf (seed + (headlineLines content).length)
  let document : OrgDocument :=
    { id := id
      title := title
      content := content
      headlines := headlines
      filetags := filetags
      parsed_at := now
      file_path := file_path.getD []
      properties := properties
      category := category
      etag := generate_document_etag content
      todo_config := todo_config }
  Except.ok { document with headlines := updateDocIds id document.headlines }

/-! ## Document repository (`repository.rs`) -/

/-- Mirror of `OrgDocumentRepository` (repository.rs): documents and
update stamps keyed by document id.  `HashMap`s are modelled as
association lists with unique keys (insertion order standing for the
unspecified iteration order). -/
structure OrgDocumentRepository where
  documents : List (Str × OrgDocument)
  last_updated : List (Str × Str)

/-- Mirror of `OrgDocumentRepository::new`. -/
def OrgDocumentRepository.new : OrgDocumentRepository := ⟨[], []⟩

/-- Mirror of `OrgDocumentRepository::upsert`: insert or replace by the
document's id; the update stamp records the supplied clock value. -/
def OrgDocumentRepository.upsert (repo : OrgDocumentRepository)
    (document : OrgDocument) (now : Str) : OrgDocumentRepository :=
  { documents := assocInsert document.id document repo.documents
    last_updated := assocInsert document.id now repo.last_updated }

/-- Mirror of `OrgDocumentRepository::get`. -/
def OrgDocumentRepository.get (repo : OrgDocumentRepository) (id : Str) :
    Option OrgDocument :=
  assocGet id repo.documents

/-- Mirror of `OrgDocumentRepository::list`: all documents. -/
def OrgDocumentRepository.list (repo : OrgDocumentRepository) :
    List OrgDocument :=
  repo.documents.map (fun kv => kv.2)

/-- Mirror of `OrgDocumentRepository::remove`: drops the key from both
maps and returns the removed document, if any. -/
def OrgDocumentRepository.remove (repo : OrgDocumentRepository) (id : Str) :
    Option OrgDocument × OrgDocumentRepository :=
  (assocGet id repo.documents,
    { documents := repo.documents.filter (fun kv => kv.1 ≠ id)
      last_updated := repo.last_updated.filter (fun kv => kv.1 ≠ id) })

/-- Rust `Path::file_name`, modelled: the last nonempty slash-separated
component, unless it is `..`. -/
def fileNameOf (path : Str) : Option Str :=
  match ((splitOnChar '/' path).filter (· ≠ [])).getLast? with
  | some c => if c = "..".toList then none else some c
  | none => none

/-- Mirror of `OrgDocumentRepository::parse_file` (repository.rs): reads
the file (the successful read is modelled by the `content` argument),
derives the file name, parses the content, uses the file name as document
id only when the parsed id is empty, and upserts.  Returns the id under
which the document was stored. -/
def OrgDocumentRepository.parse_file (repo : OrgDocumentRepository)
    (path content : Str) (seed : Nat) (now : Str) :
    Except Str (Str × OrgDocumentRepository) :=
  match fileNameOf path with
  | none => Except.error ("Invalid file name: ".toList ++ path)
  | some file_name =>
    match parse_org_document content (some path) seed now with
    | Except.error _ => Except.error "Failed to parse document".toList
    | Except.ok doc =>
      let document := if doc.id = [] then { doc with id := file_name } else doc
      Except.ok (document.id, repo.upsert document now)

/-- Mirror of `OrgDocumentRepository::prune_uncovered_documents`
(repository.rs): collect the ids of all documents whose `file_path` fails
the coverage predicate, remove them one by one, and return the ids whose
removal found a document. -/
def OrgDocumentRepository.prune_uncovered_documents
    (repo : OrgDocumentRepository) (is_file_covered : Str → Bool) :
    List Str × OrgDocumentRepository :=
  let doc_ids_to_remove :=
    ((repo.documents.map (fun kv => kv.2)).filter
      (fun doc => !is_file_covered doc.file_path)).map (fun doc => doc.id)
  doc_ids_to_remove.foldl
    (fun st doc_id =>
      match st.2.remove doc_id with
      | (some _, r') => (st.1 ++ [doc_id], r')
      | (none, r') => (st.1, r'))
    ([], repo)

/-! ## File monitor event handling (`monitor.rs`) -/

/-- Mirror of `notify::EventKind` (external watcher crate), at the
granularity used by the dispatcher. -/
inductive FsEventKind where
  | any
  | access
  | create
  | modify
  | remove
  | other
deriving DecidableEq

/-- A raw filesystem event as delivered to the dispatcher task. -/
structure FsEvent where
  kind : FsEventKind
  paths : List Str

/-- Mirror of `FileMonitor::get_relevant_path_from_event` (monitor.rs):
the first path of a modify/create/remove event. -/
def get_relevant_path_from_event (e : FsEvent) : Option Str :=
  match e.kind with
  | .modify => e.paths.head?
  | .create => e.paths.head?
  | .remove => e.paths.head?
  | _ => none

/-- Rust `Path::extension`, modelled on the file name: the part after the
last dot, none for a lone leading dot (hidden-file shape) or no dot. -/
def extensionOf (file_name : Str) : Option Str :=
  let parts := splitOnChar '.' file_name
  if parts.length ≤ 1 then none
  else if startsWithChar '.' file_name ∧ parts.length = 2 then none
  else parts.getLast?

/-- Mirror of `FileMonitor::is_relevant_file` (monitor.rs): skip hidden
files (name starting with a dot), accept exactly the `org` extension. -/
def is_relevant_file (path : Str) : Bool :=
  match fileNameOf path with
  | some file_name =>
    if startsWithChar '.' file_name then false
    else
      match extensionOf file_name with
      | some ext => ext = "org".toList
      | none => false
  | none => false

/-- One task spawned by the dispatcher: it sleeps until `due` (the event's
arrival time plus the fixed 300 ms debounce duration) and then calls
`handle_file_change` on `path` unconditionally — the source contains no
check that the timer was superseded by a newer event. -/
structure ScheduledReparse where
  path : Str
  due : Nat
deriving DecidableEq

/-- The debounce delay of the dispatcher (ms). -/
def debounceDuration : Nat := 300

/-- One iteration of the dispatcher loop of `start_monitoring`
(monitor.rs, lines 261-295), faithful to the source: for a relevant event
the arrival instant is written into `debounce_map` (which no code ever
reads back) and a task is spawned that will re-parse the file after the
debounce sleep.  The state is the debounce map paired with the spawned
re-parse schedule. -/
def dispatchStep (st : List (Str × Nat) × List ScheduledReparse)
    (ev : Nat × FsEvent) : List (Str × Nat) × List ScheduledReparse :=
  match get_relevant_path_from_event ev.2 with
  | some path =>
    if is_relevant_file path then
      (assocInsert path ev.1 st.1, st.2 ++ [⟨path, ev.1 + debounceDuration⟩])
    else st
  | none => st

/-- The dispatcher task over a finite trace of timestamped events. -/
def monitorDispatch (events : List (Nat × FsEvent)) :
    List (Str × Nat) × List ScheduledReparse :=
  events.foldl dispatchStep ([], [])

/-- Number of `handle_file_change` re-parses of `path` that a trace of
events produces: one per spawned task, since every spawned task re-parses
after its sleep. -/
def reparseCount (events : List (Nat × FsEvent)) (path : Str) : Nat :=
  ((monitorDispatch events).2.filter (fun s => s.path = path)).length

/-! ## Specification-side definitions (written from the claims' words) -/

/-- Claim-side search for the TODO declaration: the first line (trimmed)
carrying a `#+TODO:`/`#+SEQ_TODO:` marker whose value contains a pipe,
with the value split at that first pipe into the two token lists. -/
def findTodoDecl : List Str → Option (List Str × List Str)
  | [] => none
  | l :: ls =>
    match todoDeclSides (trim l) with
    | some sides => some sides
    | none => findTodoDecl ls

/-- C7's claimed semantics, verbatim: when a declaration applies, each
segment's whitespace-separated tokens (shortcut suffix stripped) become
that side's keywords; only when no declaration applies do the sets default
to `TODO` / `DONE`. -/
def todoKeywordsClaimed (content : Str) : List Str × List Str :=
  match findTodoDecl (linesOf content) with
  | some sides => sides
  | none => (["TODO".toList], ["DONE".toList])

/-- Amended semantics forced by the counterexample: a declaration side
with no tokens keeps that side's default instead of emptying it. -/
def todoKeywordsAmended (content : Str) : List Str × List Str :=
  match findTodoDecl (linesOf content) with
  | some sides =>
    ((if sides.1 ≠ [] then sides.1 else ["TODO".toList]),
      (if sides.2 ≠ [] then sides.2 else ["DONE".toList]))
  | none => (["TODO".toList], ["DONE".toList])

/-- Replaces the content of grandchild `j` of child `i` of a headline,
leaving everything else (in particular every title and id) unchanged; the
headline is returned unchanged when either index is out of range. -/
def setGrandchildContent (h : OrgHeadline) (i j : Nat) (c : Str) : OrgHeadline :=
  match h.children[i]? with
  | none => h
  | some ch =>
    match ch.children[j]? with
    | none => h
    | some g =>
      { h with children :=
          h.children.set i { ch with children := ch.children.set j { g with content := c } } }

/-- Well-formedness of the repository map maintained by `upsert`: every
entry is keyed by its document's id, and keys are unique (the `HashMap`
invariant). -/
def RepoWF (repo : OrgDocumentRepository) : Prop :=
  (∀ kv ∈ repo.documents, kv.1 = kv.2.id) ∧ (repo.documents.map (fun kv => kv.1)).Nodup

/-! ## Concrete sample data for counterexamples and witnesses -/

/-- Title with only raw text and level set (all claims' sample data). -/
def mkTitle (raw : Str) (lvl : Nat) : OrgTitle :=
  { raw := raw
    level := lvl
    priority := none
    tags := []
    todo_keyword := none
    properties := []
    planning := none }

/-- Flat sample headline, built like `OrgHeadline::new` with empty
document id. -/
def mkFlat (id : Str) (lvl : Nat) (raw content : Str) : OrgHeadline :=
  OrgHeadline.make id [] lvl (mkTitle raw lvl) content

/-- Sample document carrying only an id and a file path (the fields
`prune_uncovered_documents` looks at). -/
def mkDoc (id file_path : Str) : OrgDocument :=
  { id := id
    title := []
    content := []
    headlines := []
    filetags := []
    parsed_at := []
    file_path := file_path
    properties := []
    category := []
    etag := []
    todo_config := none }

/-- Flat input with levels `[1, 2, 3, 2, 1]` (C3's first test vector). -/
def demoLevels12321 : List OrgHeadline :=
  [mkFlat "1".toList 1 "a".toList "ca".toList,
   mkFlat "2".toList 2 "b".toList "cb".toList,
   mkFlat "3".toList 3 "c".toList "cc".toList,
   mkFlat "4".toList 2 "d".toList "cd".toList,
   mkFlat "5".toList 1 "e".toList "ce".toList]

/-- Flat input with non-contiguous levels `[1, 3]` (C3's second test
vector). -/
def demoLevels13 : List OrgHeadline :=
  [mkFlat "1".toList 1 "a".toList "ca".toList,
   mkFlat "3".toList 3 "c".toList "cc".toList]

/-- Three-level flat input for the C2 counterexample. -/
def c2flatA : List OrgHeadline :=
  [mkFlat "1".toList 1 "root".toList "root body".toList,
   mkFlat "2".toList 2 "child".toList "child body".toList,
   mkFlat "3".toList 3 "grand".toList "grand body".toList]

/-- The same input with only the grandchild's content changed. -/
def c2flatB : List OrgHeadline :=
  [mkFlat "1".toList 1 "root".toList "root body".toList,
   mkFlat "2".toList 2 "child".toList "child body".toList,
   mkFlat "3".toList 3 "grand".toList "grand body CHANGED".toList]

/-- Root etag of a built forest (for the C2 counterexample). -/
def rootEtagOf (hs : List OrgHeadline) : Option HeadlineFingerprint :=
  (build_headline_hierarchy hs).head?.bind (fun r => r.etag)

/-- Grandchild content of the first root of a built forest. -/
def grandContentOf (hs : List OrgHeadline) : Option Str :=
  (build_headline_hierarchy hs).head?.bind (fun r =>
    r.children.head?.bind (fun c => c.children.head?.map (fun g => g.content)))

/-- Sample file content for the C1 failing input. -/
def c1content : Str := "#+TITLE: T\n* Heading 1\nBody\n".toList

/-- Sample monitored path for the C1 failing input. -/
def c1path : Str := "/monitored/test.org".toList

/-- Repository state after parsing the same unchanged file twice through
`parse_file` (distinct UUID seeds model the two `Uuid::new_v4` draws). -/
def c1repoTwice : Except Str (Str × OrgDocumentRepository) :=
  match OrgDocumentRepository.new.parse_file c1path c1content 0 "t0".toList with
  | Except.ok st => st.2.parse_file c1path c1content 100 "t1".toList
  | Except.error e => Except.error e

/-- Two modify events for the same org file, the second arriving 100 ms
after the first — inside the 300 ms debounce window of the first. -/
def c4events : List (Nat × FsEvent) :=
  [(0, ⟨.modify, [c1path]⟩), (100, ⟨.modify, [c1path]⟩)]

/-- The C6 witness repository: one covered and one uncovered document. -/
def c6repo : OrgDocumentRepository :=
  (OrgDocumentRepository.new.upsert
    (mkDoc "doc1".toList "/monitored/x.org".toList) "t0".toList).upsert
    (mkDoc "doc2".toList "/other/y.org".toList) "t1".toList

/-- The C6 witness coverage predicate: only `/monitored/` paths. -/
def c6covered (p : Str) : Bool := startsWith "/monitored/".toList p

/-! ## Theorems -/

/-- C4: the dispatcher of `start_monitoring` spawns one unconditional
re-parse task per relevant event: two modify events for the same org file
100 ms apart (inside the 300 ms window) produce two re-parses, not one.
The `debounce_map` write is dead state — no code reads it back — so the
count is independent of the arrival times. -/
theorem c4_each_event_spawns_its_own_reparse :
    reparseCount c4events c1path = 2 ∧ reparseCount c4events c1path ≠ 1 ∧
    c4events.map (fun ev => ev.1) = [0, 100] ∧ 100 < 0 + debounceDuration := by
  decide

/-- C7 counterexample: on `#+TODO: | DONE` the active segment has no
tokens, so the claimed semantics yields an empty active set, but the code
keeps the default `TODO` for that side. -/
theorem c7_counterexample_empty_active_segment :
    extract_todo_keywords_from_content "#+TODO: | DONE".toList
        = (["TODO".toList], ["DONE".toList]) ∧
      todoKeywordsClaimed "#+TODO: | DONE".toList = ([], ["DONE".toList]) ∧
      extract_todo_keywords_from_content "#+TODO: | DONE".toList
        ≠ todoKeywordsClaimed "#+TODO: | DONE".toList := by
  decide

/-- C9: the headline etag is computed without the headline's own id (two
headlines agreeing on title, content, tags, todo keyword, priority,
properties and children get the same etag whatever their ids), and the
etag determines the title's raw text (so changing the title text changes
the etag). -/
theorem c9_etag_ignores_id_and_tracks_title :
    (∀ h1 h2 : OrgHeadline,
        h1.title = h2.title → h1.content = h2.content → h1.tags = h2.tags →
        h1.todo_keyword = h2.todo_keyword → h1.priority = h2.priority →
        h1.properties = h2.properties → h1.children = h2.children →
        generate_headline_etag h1 = generate_headline_etag h2) ∧
    (∀ h1 h2 : OrgHeadline, h1.title.raw ≠ h2.title.raw →
        generate_headline_etag h1 ≠ generate_headline_etag h2) := by
  constructor
  · intro h1 h2 ht hc htg hk hp hpr hch
    simp [generate_headline_etag, ht, hc, htg, hk, hp, hpr, hch]
  · intro h1 h2 hne heq
    apply hne
    have h := congrArg HeadlineFingerprint.title heq
    simpa [generate_headline_etag, titleHashInput] using
      congrArg TitleFingerprint.raw h

/-- Witness for C9 at concrete headlines: ids `1` and `2` with the same
data give equal etags; changing only the raw title changes the etag. -/
theorem c9_etag_witness :
    generate_headline_etag (mkFlat "1".toList 1 "T".toList "C".toList)
        = generate_headline_etag (mkFlat "2".toList 1 "T".toList "C".toList) ∧
      generate_headline_etag (mkFlat "1".toList 1 "T".toList "C".toList)
        ≠ generate_headline_etag (mkFlat "1".toList 1 "U".toList "C".toList) :=
  ⟨c9_etag_ignores_id_and_tracks_title.1 _ _ rfl rfl rfl rfl rfl rfl rfl,
    c9_etag_ignores_id_and_tracks_title.2 _ _ (by decide)⟩

/-- C1: parsing the same unchanged file twice through
`OrgDocumentRepository::parse_file` stores two documents, not one —
`parse_org_document` draws a fresh UUID id on every parse (it is never
empty, so the `file_name` fallback in `parse_file` is dead code), and
`upsert` therefore inserts under a brand-new key instead of replacing. -/
theorem c1_reparse_same_file_accumulates_documents :
    (match c1repoTwice with
      | Except.ok st => st.2.list.length
      | Except.error _ => 0) = 2 ∧
      (match c1repoTwice with
        | Except.ok st => st.2.list.map (fun d => d.file_path)
        | Except.error _ => []) = [c1path, c1path] ∧
      (match c1repoTwice with
        | Except.ok st => st.2.list.map (fun d => d.id)
        | Except.error _ => []) = ["uuid-1".toList, "uuid-101".toList] := by
  decide

/-- C2 counterexample: two parses that differ only in the grandchild's
content produce the same root etag — the root hashes each direct child's
title and id only, so no content change below depth one reaches it. -/
theorem c2_counterexample_root_etag_misses_grandchild :
    rootEtagOf c2flatA = rootEtagOf c2flatB ∧
      grandContentOf c2flatA = some "grand body".toList ∧
      grandContentOf c2flatB = some "grand body CHANGED".toList := by
  refine ⟨?_, ?_, ?_⟩ <;>
    simp [rootEtagOf, grandContentOf, build_headline_hierarchy, buildForest,
      processAll, finishRun, stepH, popGE, closeFrame, attachClosed, c2flatA,
      c2flatB, mkFlat, mkTitle, OrgHeadline.make, generate_etags_recursively,
      generateEtagsChildren, generate_headline_etag, titleHashInput, sortProps]

/-- Helper for C10: when no keyword passes the FILETAGS key test, the
filetags fold leaves its accumulator unchanged. -/
theorem extract_filetags_of_none_aux (l : List (Str × Str)) (acc : List Str)
    (h : l.all (fun kv => !eqIgnoreAsciiCase kv.1 "FILETAGS".toList) = true) :
    l.foldl
      (fun acc kv =>
        if eqIgnoreAsciiCase kv.1 "FILETAGS".toList then
          acc ++ filetags_from_value kv.2
        else acc)
      acc = acc := by
  induction l generalizing acc with
  | nil => rfl
  | cons kv rest ih =>
    simp only [List.all_cons, Bool.and_eq_true, Bool.not_eq_true'] at h
    rw [List.foldl_cons, if_neg (by simp only [h.1]; exact Bool.false_ne_true)]
    exact ih acc h.2

/-- C10: `parse_org_document` never returns an error — every extraction
step is total and the function ends in `Ok` — and absent `TITLE`,
`CATEGORY` and `FILETAGS` declarations yield the defaults
(`Untitled Document`, empty category, empty tag list). -/
theorem c10_parse_always_ok :
    ∀ (content : Str) (file_path : Option Str) (seed : Nat) (now : Str),
      ∃ doc, parse_org_document content file_path seed now = Except.ok doc ∧
        ((extract_document_title content).isNone →
          doc.title = "Untitled Document".toList) ∧
        ((extract_category content).isNone → doc.category = []) ∧
        ((keywordsOf content).all
            (fun kv => !eqIgnoreAsciiCase kv.1 "FILETAGS".toList) = true →
          doc.filetags = []) := by
  intro content fp seed now
  refine ⟨_, rfl, ?_, ?_, ?_⟩
  · intro h
    simp only [Option.isNone_iff_eq_none] at h
    simp [parse_org_document, h]
  · intro h
    simp only [Option.isNone_iff_eq_none] at h
    simp [parse_org_document, h]
  · intro h
    simp only [parse_org_document, extract_filetags]
    exact extract_filetags_of_none_aux _ _ h

/-- Witness for C10 at a concrete input: a document with no keyword lines
parses to `Ok` with all three defaults. -/
theorem c10_parse_always_ok_witness :
    ∃ doc, parse_org_document "* A\n".toList none 0 [] = Except.ok doc ∧
      doc.title = "Untitled Document".toList ∧ doc.category = [] ∧
      doc.filetags = [] := by
  obtain ⟨doc, hok, ht, hc, hf⟩ := c10_parse_always_ok "* A\n".toList none 0 []
  exact ⟨doc, hok, ht (by decide), hc (by decide), hf (by decide)⟩

/-- Helper for C7: the source's stateful scan loop equals the find-first
formulation with per-side defaulting. -/
theorem todoLoop_eq_find (ls : List Str) (act clo : List Str) :
    todoLoop ls act clo =
      (match findTodoDecl ls with
        | some sides =>
          ((if sides.1 ≠ [] then sides.1 else act),
            (if sides.2 ≠ [] then sides.2 else clo))
        | none => (act, clo)) := by
  induction ls generalizing act clo with
  | nil => rfl
  | cons l ls ih =>
    simp only [todoLoop, findTodoDecl]
    cases todoDeclSides (trim l) with
    | none => exact ih act clo
    | some sides => rfl

/-- C7 amended: a `#+TODO:`/`#+SEQ_TODO:` value is split at its first
pipe and each segment tokenised with shortcut suffixes stripped, but a
segment with no tokens keeps that side's default (`TODO` / `DONE`); with
no pipe-carrying declaration both defaults apply. -/
theorem c7_amended_todo_declaration_with_side_defaults (content : Str) :
    extract_todo_keywords_from_content content = todoKeywordsAmended content := by
  simp only [extract_todo_keywords_from_content, todoKeywordsAmended,
    todoLoop_eq_find]

/-- Helper: a string whose first and last characters are not whitespace is
unchanged by `trim`. -/
theorem trim_eq_self_of_ends (s : Str) (a b : Char) (h1 : s.head? = some a)
    (ha : isWs a = false) (h2 : s.getLast? = some b) (hb : isWs b = false) :
    trim s = s := by
  cases s with
  | nil => simp at h1
  | cons x t =>
    have hx : x = a := by simpa using h1
    have hstart : trimStart (x :: t) = x :: t := by
      simp [trimStart, List.dropWhile_cons, hx, ha]
    rw [trim, hstart, trimEnd]
    have hrev : (x :: t).reverse.head? = some b := by
      rw [List.head?_reverse]; exact h2
    cases hr : (x :: t).reverse with
    | nil => simp [hr] at hrev
    | cons y u =>
      have hy : y = b := by rw [hr] at hrev; simpa using hrev
      have hdw : List.dropWhile isWs (y :: u) = y :: u := by
        rw [List.dropWhile_cons, hy, hb]; simp
      rw [hdw, ← hr, List.reverse_reverse]

/-- Helper: stripping all outer occurrences of `c` from `c :: s ++ [c]`
yields `s` when `s` neither starts nor ends with `c`. -/
theorem trimMatchesChar_wrap (c : Char) (s : Str) (a b : Char)
    (h1 : s.head? = some a) (ha : a ≠ c) (h2 : s.getLast? = some b)
    (hb : b ≠ c) : trimMatchesChar c (c :: s ++ [c]) = s := by
  cases s with
  | nil => simp at h1
  | cons x t =>
    have hx : x = a := by simpa using h1
    rw [trimMatchesChar]
    have hdrop :
        (c :: (x :: t) ++ [c]).dropWhile (fun d => d = c) = (x :: t) ++ [c] := by
      simp [List.dropWhile_cons, hx, ha]
    rw [hdrop]
    have hrev : ((x :: t) ++ [c]).reverse = c :: (x :: t).reverse := by
      simp
    rw [hrev, List.dropWhile_cons, if_pos (by simp)]
    have hrevh : (x :: t).reverse.head? = some b := by
      rw [List.head?_reverse]; exact h2
    cases hr : (x :: t).reverse with
    | nil => simp [hr] at hrevh
    | cons y u =>
      have hy : y = b := by rw [hr] at hrevh; simpa using hrevh
      have hdw : List.dropWhile (fun d => d = c) (y :: u) = y :: u := by
        rw [List.dropWhile_cons, hy]; simp [hb]
      rw [hdw, ← hr, List.reverse_reverse]

/-- Helper: splitting a string without the separator yields it whole. -/
theorem splitOnChar_no_sep (c : Char) (t : Str) (h : c ∉ t) :
    splitOnChar c t = [t] := by
  induction t with
  | nil => rfl
  | cons x xs ih =>
    have hx : x ≠ c := fun e => h (e ▸ List.mem_cons_self x xs)
    have hxs : c ∉ xs := fun m => h (List.mem_cons_of_mem x m)
    rw [splitOnChar]
    simp only [hx, if_false, ih hxs]

/-- Helper: splitting consumes a separator-free chunk before the first
separator. -/
theorem splitOnChar_chunk (c : Char) (t s : Str) (h : c ∉ t) :
    splitOnChar c (t ++ c :: s) = t :: splitOnChar c s := by
  induction t with
  | nil => simp [splitOnChar]
  | cons x xs ih =>
    have hx : x ≠ c := fun e => h (e ▸ List.mem_cons_self x xs)
    have hxs : c ∉ xs := fun m => h (List.mem_cons_of_mem x m)
    rw [List.cons_append, splitOnChar]
    simp only [hx, if_false, ih hxs]

/-- Helper: splitting inverts joining for separator-free parts. -/
theorem splitOnChar_intercalate (c : Char) (ts : List Str) (hne : ts ≠ [])
    (h : ∀ t ∈ ts, c ∉ t) :
    splitOnChar c (intercalateChar c ts) = ts := by
  induction ts with
  | nil => exact absurd rfl hne
  | cons t rest ih =>
    cases rest with
    | nil =>
      exact splitOnChar_no_sep c t (h t (List.mem_cons_self t []))
    | cons t' rest' =>
      have hne' : t' :: rest' ≠ [] := List.cons_ne_nil t' rest'
      rw [intercalateChar, splitOnChar_chunk c t _ (h t (List.mem_cons_self _ _))]
      · rw [ih hne' (fun u hu => h u (List.mem_cons_of_mem t hu))]
      · exact hne'

/-- Helper: joining nonempty parts yields a nonempty string. -/
theorem intercalateChar_ne_nil (c : Char) (ts : List Str) (hne : ts ≠ [])
    (h : ∀ t ∈ ts, t ≠ []) : intercalateChar c ts ≠ [] := by
  cases ts with
  | nil => exact absurd rfl hne
  | cons t rest =>
    cases rest with
    | nil => exact h t (List.mem_cons_self t [])
    | cons t' rest' =>
      cases ht : t with
      | nil => exact absurd ht (h t (List.mem_cons_self _ _))
      | cons x xs => simp [intercalateChar]

/-- Helper: the head of a join is the head of its first part. -/
theorem intercalateChar_head (c : Char) (t : Str) (rest : List Str)
    (h : t ≠ []) : (intercalateChar c (t :: rest)).head? = t.head? := by
  cases rest with
  | nil => rfl
  | cons t' rest' =>
    cases t with
    | nil => exact absurd rfl h
    | cons x xs => simp [intercalateChar]

/-- Helper: the last character of a join of nonempty separator-free parts
exists and is not the separator. -/
theorem intercalateChar_getLast (c : Char) (ts : List Str) (hne : ts ≠ [])
    (h : ∀ t ∈ ts, t ≠ [] ∧ c ∉ t) :
    ∃ b, (intercalateChar c ts).getLast? = some b ∧ b ≠ c := by
  induction ts with
  | nil => exact absurd rfl hne
  | cons t rest ih =>
    cases rest with
    | nil =>
      obtain ⟨htne, htc⟩ := h t (List.mem_cons_self t [])
      refine ⟨t.getLast htne, ?_, ?_⟩
      · simp [intercalateChar, List.getLast?_eq_getLast _ htne]
      · exact fun e => htc (e ▸ List.getLast_mem htne)
    | cons t' rest' =>
      have hrest : ∀ u ∈ t' :: rest', u ≠ [] ∧ c ∉ u :=
        fun u hu => h u (List.mem_cons_of_mem t hu)
      have hne' : t' :: rest' ≠ [] := List.cons_ne_nil t' rest'
      obtain ⟨b, hb, hbc⟩ := ih hne' hrest
      refine ⟨b, ?_, hbc⟩
      rw [intercalateChar, List.getLast?_append]
      case x_1 => exact hne'
      have hc : (c :: intercalateChar c (t' :: rest')).getLast? = some b := by
        cases hi : intercalateChar c (t' :: rest') with
        | nil =>
          exact absurd hi
            (intercalateChar_ne_nil c (t' :: rest') (List.cons_ne_nil _ _)
              (fun u hu => (hrest u hu).1))
        | cons z zs =>
          rw [List.getLast?_cons_cons]
          rw [hi] at hb
          exact hb
      simp [hc]

/-- C8: a `#+FILETAGS:` value of the form `:tag1:...:tagN:` (tags nonempty
and colon-free) parses to exactly the tag list in order; a value whose
trimmed form misses the leading or the trailing colon parses to the empty
list; concretely, `:a:b:c:` gives `[a, b, c]` and `:a:b:c` gives `[]`. -/
theorem c8_filetags_roundtrip :
    (∀ ts : List Str, ts ≠ [] → (∀ t ∈ ts, t ≠ [] ∧ ':' ∉ t) →
        filetags_from_value (':' :: intercalateChar ':' ts ++ [':']) = ts) ∧
      (∀ v : Str,
        (startsWithChar ':' (trim v) && endsWithChar ':' (trim v)) = false →
          filetags_from_value v = []) ∧
      extract_filetags "#+FILETAGS: :a:b:c:\n".toList
        = ["a".toList, "b".toList, "c".toList] ∧
      extract_filetags "#+FILETAGS: :a:b:c\n".toList = [] := by
  refine ⟨?_, ?_, by decide, by decide⟩
  · intro ts hne hok
    cases ts with
    | nil => exact absurd rfl hne
    | cons t1 rest =>
      obtain ⟨ht1ne, ht1c⟩ := hok t1 (List.mem_cons_self t1 rest)
      cases t1 with
      | nil => exact absurd rfl ht1ne
      | cons x xs =>
        have hxc : x ≠ ':' := fun e => ht1c (e ▸ List.mem_cons_self x xs)
        have hhead : (intercalateChar ':' ((x :: xs) :: rest)).head? = some x := by
          rw [intercalateChar_head ':' (x :: xs) rest (List.cons_ne_nil x xs)]
          rfl
        obtain ⟨b, hlast, hbc⟩ :=
          intercalateChar_getLast ':' ((x :: xs) :: rest)
            (List.cons_ne_nil _ _) hok
        have hwlast :
            (':' :: intercalateChar ':' ((x :: xs) :: rest) ++ [':']).getLast?
              = some ':' := by
          rw [List.getLast?_concat]
        have htrim :
            trim (':' :: intercalateChar ':' ((x :: xs) :: rest) ++ [':'])
              = ':' :: intercalateChar ':' ((x :: xs) :: rest) ++ [':'] :=
          trim_eq_self_of_ends _ ':' ':' rfl (by decide) hwlast (by decide)
        rw [filetags_from_value, htrim]
        have hcond :
            (startsWithChar ':'
                (':' :: intercalateChar ':' ((x :: xs) :: rest) ++ [':']) &&
              endsWithChar ':'
                (':' :: intercalateChar ':' ((x :: xs) :: rest) ++ [':'])) = true := by
          have hwlast2 :
              (':' :: (intercalateChar ':' ((x :: xs) :: rest) ++ [':'])).getLast?
                = some ':' := by
            rw [← List.cons_append]; exact hwlast
          simp [startsWithChar, endsWithChar, hwlast2]
        rw [if_pos hcond]
        rw [trimMatchesChar_wrap ':' _ x b hhead hxc hlast hbc]
        exact splitOnChar_intercalate ':' _ (List.cons_ne_nil _ _)
          (fun t ht => (hok t ht).2)
  · intro v h
    rw [filetags_from_value, if_neg]
    simp [h]

/-- Witness for C8 at concrete inputs: tags `a`, `b`, `c` round-trip, and
the trailing-colon-free value `:a:b:c` yields no tags. -/
theorem c8_filetags_roundtrip_witness :
    filetags_from_value
        (':' :: intercalateChar ':' ["a".toList, "b".toList, "c".toList] ++ [':'])
        = ["a".toList, "b".toList, "c".toList] ∧
      filetags_from_value ":a:b:c".toList = [] :=
  ⟨c8_filetags_roundtrip.1 ["a".toList, "b".toList, "c".toList] (by decide)
      (by decide),
    c8_filetags_roundtrip.2.1 ":a:b:c".toList (by decide)⟩

/-- Helper: a key occurring in an association list has a value. -/
theorem assocGet_mem_keys {α : Type} (i : Str) (l : List (Str × α))
    (h : i ∈ l.map Prod.fst) : ∃ v, assocGet i l = some v := by
  induction l with
  | nil => simp at h
  | cons kv rest ih =>
    by_cases hk : kv.1 = i
    · exact ⟨kv.2, by simp [assocGet, hk]⟩
    · have : i ∈ rest.map Prod.fst := by
        rcases List.mem_map.mp h with ⟨p, hp, he⟩
        rcases List.mem_cons.mp hp with hp | hp
        · exact absurd (hp ▸ he) hk
        · exact List.mem_map.mpr ⟨p, hp, he⟩
      rcases ih this with ⟨v, hv⟩
      exact ⟨v, by simp [assocGet, hk, hv]⟩

/-- Helper: keys survive filtering out a different key. -/
theorem mem_keys_filter_ne {α : Type} (i j : Str) (l : List (Str × α))
    (h : j ∈ l.map Prod.fst) (hne : j ≠ i) :
    j ∈ (l.filter (fun kv => kv.1 ≠ i)).map Prod.fst := by
  rcases List.mem_map.mp h with ⟨p, hp, he⟩
  exact List.mem_map.mpr
    ⟨p, List.mem_filter.mpr ⟨hp, by simp [he, hne]⟩, he⟩

/-- Helper: with unique keys, entries are determined by their key. -/
theorem nodup_keys_inj {α : Type} (l : List (Str × α))
    (hnd : (l.map Prod.fst).Nodup) (p q : Str × α) (hp : p ∈ l) (hq : q ∈ l)
    (he : p.1 = q.1) : p = q := by
  induction l with
  | nil => simp at hp
  | cons kv rest ih =>
    simp only [List.map_cons, List.nodup_cons] at hnd
    rcases List.mem_cons.mp hp with hp | hp <;> rcases List.mem_cons.mp hq with hq | hq
    · rw [hp, hq]
    · refine absurd (List.mem_map.mpr ⟨q, hq, ?_⟩) (hp ▸ hnd.1)
      rw [← he, hp]
    · refine absurd (List.mem_map.mpr ⟨p, hp, ?_⟩) (hq ▸ hnd.1)
      rw [he, hq]
    · exact ih hnd.2 hp hq

/-- Helper for C6: the removal fold of `prune_uncovered_documents`, run on
distinct ids that are all present, removes exactly those keys and reports
every id. -/
theorem prune_fold_spec (ids : List Str) (acc : List Str)
    (repo : OrgDocumentRepository) (hnd : ids.Nodup)
    (hmem : ∀ i ∈ ids, i ∈ repo.documents.map Prod.fst) :
    ids.foldl
        (fun st doc_id =>
          match st.2.remove doc_id with
          | (some _, r') => (st.1 ++ [doc_id], r')
          | (none, r') => (st.1, r'))
        (acc, repo)
      = (acc ++ ids,
          { documents := repo.documents.filter (fun kv => kv.1 ∉ ids)
            last_updated :=
              repo.last_updated.filter (fun kv => kv.1 ∉ ids) }) := by
  induction ids generalizing acc repo with
  | nil => simp
  | cons i ids' ih =>
    obtain ⟨v, hget⟩ :=
      assocGet_mem_keys i repo.documents (hmem i (List.mem_cons_self i ids'))
    simp only [List.nodup_cons] at hnd
    rw [List.foldl_cons]
    have hstep :
        (match (repo.remove i) with
          | (some _, r') => (acc ++ [i], r')
          | (none, r') => (acc, r'))
          = (acc ++ [i],
              ({ documents := repo.documents.filter (fun kv => kv.1 ≠ i)
                 last_updated :=
                   repo.last_updated.filter (fun kv => kv.1 ≠ i) } :
                OrgDocumentRepository)) := by
      simp [OrgDocumentRepository.remove, hget]
    rw [hstep]
    have hmem' : ∀ j ∈ ids',
        j ∈ (repo.documents.filter (fun kv => kv.1 ≠ i)).map Prod.fst := by
      intro j hj
      exact mem_keys_filter_ne i j repo.documents (hmem j (List.mem_cons_of_mem i hj))
        (fun e => hnd.1 (e ▸ hj))
    rw [ih (acc ++ [i]) _ hnd.2 hmem']
    refine congrArg₂ Prod.mk (by simp) ?_
    congr 1
    · rw [List.filter_filter]
      apply List.filter_congr
      intro kv _
      by_cases hki : kv.1 = i <;> simp [hki, List.mem_cons]
    · rw [List.filter_filter]
      apply List.filter_congr
      intro kv _
      by_cases hki : kv.1 = i <;> simp [hki, List.mem_cons]

/-- C6: `prune_uncovered_documents` removes exactly the documents whose
`file_path` fails the coverage predicate and returns exactly their ids,
and a second call with the same predicate removes nothing and returns an
empty list, leaving the repository unchanged. -/
theorem c6_prune_exact_and_idempotent :
    ∀ (repo : OrgDocumentRepository) (is_file_covered : Str → Bool),
      RepoWF repo →
      (repo.prune_uncovered_documents is_file_covered).1
          = (repo.list.filter (fun d => !is_file_covered d.file_path)).map
              (fun d => d.id) ∧
        (repo.prune_uncovered_documents is_file_covered).2.documents
          = repo.documents.filter (fun kv => is_file_covered kv.2.file_path) ∧
        ((repo.prune_uncovered_documents
              is_file_covered).2.prune_uncovered_documents is_file_covered).1
          = [] ∧
        ((repo.prune_uncovered_documents
              is_file_covered).2.prune_uncovered_documents is_file_covered).2
          = (repo.prune_uncovered_documents is_file_covered).2 := by
  intro repo cov hwf
  obtain ⟨hkeys, hnd⟩ := hwf
  have hform :
      ((repo.documents.map Prod.snd).filter (fun d => !cov d.file_path)).map
          (fun d => d.id)
        = (repo.documents.filter (fun kv => !cov kv.2.file_path)).map
            (fun kv => kv.2.id) := by
    rw [List.filter_map, List.map_map]
    rfl
  have hkeysform :
      (repo.documents.filter (fun kv => !cov kv.2.file_path)).map
          (fun kv => kv.2.id)
        = (repo.documents.filter (fun kv => !cov kv.2.file_path)).map Prod.fst := by
    apply List.map_congr_left
    intro kv hkv
    exact (hkeys kv (List.mem_filter.mp hkv).1).symm
  have hsub :
      ((repo.documents.filter (fun kv => !cov kv.2.file_path)).map
        Prod.fst).Sublist (repo.documents.map Prod.fst) :=
    List.Sublist.map Prod.fst (List.filter_sublist repo.documents)
  have hndr :
      (((repo.documents.map Prod.snd).filter (fun d => !cov d.file_path)).map
        (fun d => d.id)).Nodup := by
    rw [hform, hkeysform]
    exact hsub.nodup hnd
  have hmemr : ∀ i ∈ ((repo.documents.map Prod.snd).filter
      (fun d => !cov d.file_path)).map (fun d => d.id),
      i ∈ repo.documents.map Prod.fst := by
    intro i hi
    rw [hform, hkeysform] at hi
    exact hsub.subset hi
  have hmain := prune_fold_spec
    (((repo.documents.map Prod.snd).filter (fun d => !cov d.file_path)).map
      (fun d => d.id)) [] repo hndr hmemr
  have hb :
      (repo.prune_uncovered_documents cov).2.documents
        = repo.documents.filter (fun kv => cov kv.2.file_path) := by
    rw [OrgDocumentRepository.prune_uncovered_documents]
    rw [hmain]
    apply List.filter_congr
    intro kv hkv
    by_cases hcov : cov kv.2.file_path
    · have hnin : kv.1 ∉ ((repo.documents.map Prod.snd).filter
          (fun d => !cov d.file_path)).map (fun d => d.id) := by
        rw [hform, hkeysform]
        intro hin
        rcases List.mem_map.mp hin with ⟨kv', hkv', he⟩
        have hkv'd := List.mem_filter.mp hkv'
        have heq := nodup_keys_inj repo.documents hnd kv' kv hkv'd.1 hkv he
        rw [heq] at hkv'd
        simp [hcov] at hkv'd
      simp [hnin, hcov]
    · have hin : kv.1 ∈ ((repo.documents.map Prod.snd).filter
          (fun d => !cov d.file_path)).map (fun d => d.id) := by
        rw [hform, hkeysform]
        refine List.mem_map.mpr ⟨kv, List.mem_filter.mpr ⟨hkv, ?_⟩, rfl⟩
        simp [hcov]
      simp [hin, hcov]
  have hempty :
      (((repo.prune_uncovered_documents cov).2.documents.map Prod.snd).filter
        (fun d => !cov d.file_path)) = [] := by
    rw [List.filter_eq_nil_iff]
    intro d hd
    rcases List.mem_map.mp hd with ⟨kv, hkv, he⟩
    rw [hb] at hkv
    have hc := (List.mem_filter.mp hkv).2
    simp only [← he]
    simp at hc
    simp [hc]
  have hsecond :
      ((repo.prune_uncovered_documents cov).2.prune_uncovered_documents cov)
        = ([], (repo.prune_uncovered_documents cov).2) := by
    rw [OrgDocumentRepository.prune_uncovered_documents, hempty]
    rfl
  refine ⟨?_, hb, ?_, ?_⟩
  · rw [OrgDocumentRepository.prune_uncovered_documents, hmain]
    rfl
  · rw [hsecond]
  · rw [hsecond]

/-- Witness for C6 at a concrete repository: of the documents at
`/monitored/x.org` and `/other/y.org`, pruning with a predicate accepting
only `/monitored/` paths removes exactly `doc2` and returns `[doc2]`, and
a second prune is a no-op. -/
theorem c6_prune_witness :
    (c6repo.prune_uncovered_documents c6covered).1 = ["doc2".toList] ∧
      ((c6repo.prune_uncovered_documents c6covered).2.documents.map
        Prod.fst) = ["doc1".toList] ∧
      ((c6repo.prune_uncovered_documents
          c6covered).2.prune_uncovered_documents c6covered).1 = [] := by
  obtain ⟨h1, h2, h3, _⟩ :=
    c6_prune_exact_and_idempotent c6repo c6covered (by constructor <;> decide)
  refine ⟨?_, ?_, h3⟩
  · rw [h1]; decide
  · rw [h2]; decide

/-- Helper: writing back the element already at an index is a no-op. -/
theorem list_set_self {α : Type} (l : List α) (i : Nat) (a : α)
    (h : l[i]? = some a) : l.set i a = l := by
  induction l generalizing i with
  | nil => simp at h
  | cons x xs ih =>
    cases i with
    | zero => simp at h; simp [h]
    | succ n =>
      simp only [List.getElem?_cons_succ] at h
      simp [List.set_cons_succ, ih n h]

/-- Helper: the etag pass preserves a headline's title. -/
theorem genEtags_title (h : OrgHeadline) :
    (generate_etags_recursively h).title = h.title := by
  cases h
  simp [generate_etags_recursively]

/-- Helper: the etag pass preserves a headline's id. -/
theorem genEtags_id (h : OrgHeadline) :
    (generate_etags_recursively h).id = h.id := by
  cases h
  simp [generate_etags_recursively]

/-- Helper: the etag pass preserves each child's title/id summary. -/
theorem genEtagsChildren_summaries (cs : List OrgHeadline) :
    (generateEtagsChildren cs).map (fun c => (titleHashInput c.title, c.id))
      = cs.map (fun c => (titleHashInput c.title, c.id)) := by
  induction cs with
  | nil => rfl
  | cons c cs ih =>
    simp [generateEtagsChildren, genEtags_title, genEtags_id, ih]

/-- Helper: the etag assigned by the recursive pass is the fingerprint of
the headline's own fields together with its children's title/id
summaries. -/
theorem genEtags_etag (h : OrgHeadline) :
    (generate_etags_recursively h).etag
      = some
          { title := titleHashInput h.title
            content := h.content
            tags := h.tags
            todo_keyword := h.todo_keyword
            priority := h.priority
            properties := h.properties
            childSummaries :=
              h.children.map (fun c => (titleHashInput c.title, c.id)) } := by
  cases h
  simp [generate_etags_recursively, generate_headline_etag,
    genEtagsChildren_summaries]

/-- C2 amended: replacing only a grandchild's content never changes the
headline's own etag — the etag hashes each direct child's title and id,
so no change below depth one can reach it. -/
theorem c2_amended_etag_ignores_grandchild_content
    (h : OrgHeadline) (i j : Nat) (c : Str) :
    (generate_etags_recursively (setGrandchildContent h i j c)).etag
      = (generate_etags_recursively h).etag := by
  rcases hi : h.children[i]? with _ | ch
  · simp [setGrandchildContent, hi]
  · rcases hj : ch.children[j]? with _ | g
    · simp [setGrandchildContent, hi, hj]
    · have hcs :
          (h.children.set i
              { ch with children := ch.children.set j { g with content := c } }).map
                (fun c' => (titleHashInput c'.title, c'.id))
            = h.children.map (fun c' => (titleHashInput c'.title, c'.id)) := by
        rw [List.map_set]
        refine list_set_self _ i _ ?_
        rw [List.getElem?_map, hi]
        rfl
      rw [genEtags_etag, genEtags_etag]
      simp [setGrandchildContent, hi, hj, hcs]

/-- Helper: popping at a level below everything changes nothing. -/
theorem popGE_nil (lvl : Nat) (roots : List OrgHeadline) :
    popGE lvl [] roots = ([], roots) := rfl

/-- Helper: a top frame strictly below the incoming level stops the pop
loop. -/
theorem popGE_cons_lt (lvl : Nat) (f : Frame) (stack : List Frame)
    (roots : List OrgHeadline) (h : ¬ lvl ≤ f.level) :
    popGE lvl (f :: stack) roots = (f :: stack, roots) := by
  simp [popGE, List.takeWhile_cons, h]

/-- Helper: a top frame at or above the incoming level closes and is
delivered below, after which popping continues on the rest. -/
theorem popGE_cons_ge (lvl : Nat) (f : Frame) (stack : List Frame)
    (roots : List OrgHeadline) (h : lvl ≤ f.level) :
    popGE lvl (f :: stack) roots
      = popGE lvl (attachClosed stack roots (closeFrame f)).1
          (attachClosed stack roots (closeFrame f)).2 := by
  cases stack with
  | nil =>
    simp [popGE, attachClosed, List.takeWhile_cons, h]
  | cons g rest =>
    by_cases hg : lvl ≤ g.level
    · simp only [popGE, attachClosed]
      simp [List.takeWhile_cons, List.dropWhile_cons, h, hg, closeFrame]
    · simp only [popGE, attachClosed]
      simp [List.takeWhile_cons, List.dropWhile_cons, h, hg]

/-- Helper: `takeWhile` walks through a fully satisfying prefix. -/
theorem takeWhile_append_all {α : Type} (p : α → Bool) (l1 l2 : List α)
    (h : ∀ x ∈ l1, p x = true) :
    (l1 ++ l2).takeWhile p = l1 ++ l2.takeWhile p := by
  induction l1 with
  | nil => rfl
  | cons a as ih =>
    have ha := h a (List.mem_cons_self a as)
    simp [List.takeWhile_cons, ha, ih (fun x hx => h x (List.mem_cons_of_mem a hx))]

/-- Helper: `dropWhile` passes over a fully satisfying prefix. -/
theorem dropWhile_append_all {α : Type} (p : α → Bool) (l1 l2 : List α)
    (h : ∀ x ∈ l1, p x = true) :
    (l1 ++ l2).dropWhile p = l2.dropWhile p := by
  induction l1 with
  | nil => rfl
  | cons a as ih =>
    have ha := h a (List.mem_cons_self a as)
    simp [List.dropWhile_cons, ha, ih (fun x hx => h x (List.mem_cons_of_mem a hx))]

/-- Helper: the head surviving `dropWhile` fails the predicate. -/
theorem dropWhile_head_false {α : Type} (p : α → Bool) (l : List α)
    (y : α) (ys : List α) (h : l.dropWhile p = y :: ys) : p y = false := by
  induction l with
  | nil => simp at h
  | cons a as ih =>
    by_cases ha : p a = true
    · rw [List.dropWhile_cons, if_pos ha] at h
      exact ih h
    · rw [List.dropWhile_cons, if_neg ha] at h
      cases h
      exact Bool.not_eq_true _ ▸ (by simpa using ha)

/-- Helper: a nonempty `takeWhile` starts at the list's head. -/
theorem takeWhile_eq_cons_head {α : Type} (p : α → Bool) (l : List α)
    (y : α) (ys : List α) (h : l.takeWhile p = y :: ys) : l.head? = some y := by
  cases l with
  | nil => simp at h
  | cons a as =>
    by_cases ha : p a = true
    · rw [List.takeWhile_cons, if_pos ha] at h
      cases h
      rfl
    · rw [List.takeWhile_cons, if_neg ha] at h
      cases h

/-- Helper: draining the stack once the input ends closes the top frame
into the frame below (or the root list) and drains the rest. -/
theorem finishRun_cons (f : Frame) (stack : List Frame)
    (roots : List OrgHeadline) :
    finishRun (f :: stack, roots)
      = finishRun (attachClosed stack roots (closeFrame f)) := by
  have hb := popGE_cons_ge 0 f stack roots (Nat.zero_le _)
  simp only [finishRun]
  rw [hb]

/-- Helper (key builder lemma): running the loop with an open top frame
`f` is the same as parsing the maximal strictly-deeper span after it into
`f`'s children via the specification-side recursion, closing `f`, and
continuing with the rest of the input.  Induction is on a bound for the
input length. -/
theorem runB (n : Nat) : ∀ (hs : List OrgHeadline), hs.length ≤ n →
    ∀ (f : Frame) (stack : List Frame) (roots : List OrgHeadline),
    finishRun (processAll (f :: stack, roots) hs)
      = finishRun (processAll
          (attachClosed stack roots
            { f.headline with children :=
                f.headline.children ++ (f.newChildren ++
                  nestBySpan (hs.takeWhile (fun g => f.level < g.title.level))) })
          (hs.dropWhile (fun g => f.level < g.title.level))) := by
  induction n with
  | zero =>
    intro hs hlen f stack roots
    have hnil : hs = [] := List.length_eq_zero.mp (Nat.le_zero.mp hlen)
    subst hnil
    have hcl :
        ({ f.headline with children :=
            f.headline.children ++ (f.newChildren ++ nestBySpan []) } :
          OrgHeadline) = closeFrame f := by
      simp [closeFrame, nestBySpan]
    simp only [processAll, List.foldl_nil, List.takeWhile_nil,
      List.dropWhile_nil, hcl]
    exact finishRun_cons f stack roots
  | succ n ih =>
    intro hs hlen f stack roots
    cases hs with
    | nil =>
      have hcl :
          ({ f.headline with children :=
              f.headline.children ++ (f.newChildren ++ nestBySpan []) } :
            OrgHeadline) = closeFrame f := by
        simp [closeFrame, nestBySpan]
      simp only [processAll, List.foldl_nil, List.takeWhile_nil,
        List.dropWhile_nil, hcl]
      exact finishRun_cons f stack roots
    | cons h rest =>
      have hlen' : rest.length ≤ n := by
        simpa using Nat.le_of_succ_le_succ hlen
      by_cases hfl : f.level < h.title.level
      · -- the incoming headline opens a deeper scope above `f`
        have hnot : ¬ (h.title.level ≤ f.level) := by omega
        have hstep :
            stepH (f :: stack, roots) h
              = (⟨h, h.title.level, []⟩ :: f :: stack, roots) := by
          simp [stepH, popGE_cons_lt _ _ _ _ hnot]
        have hall : ∀ x ∈ rest.takeWhile
            (fun g => h.title.level < g.title.level),
            (fun g => decide (f.level < g.title.level)) x = true := by
          intro x hx
          have := List.mem_takeWhile_imp hx
          simp only [decide_eq_true_eq] at this ⊢
          omega
        have hsplit := List.takeWhile_append_dropWhile
          (p := fun g => decide (h.title.level < g.title.level)) (l := rest)
        -- abbreviations
        set pf : OrgHeadline → Bool := fun g => decide (f.level < g.title.level)
          with hpf
        set pg : OrgHeadline → Bool :=
          fun g => decide (h.title.level < g.title.level) with hpg
        have htw : rest.takeWhile pf
            = rest.takeWhile pg ++ (rest.dropWhile pg).takeWhile pf := by
          conv_lhs => rw [← hsplit]
          exact takeWhile_append_all pf _ _ hall
        have hdw : rest.dropWhile pf = (rest.dropWhile pg).dropWhile pf := by
          conv_lhs => rw [← hsplit]
          exact dropWhile_append_all pf _ _ hall
        have hpgo : ((rest.dropWhile pg).takeWhile pf).takeWhile pg = []
            ∧ ((rest.dropWhile pg).takeWhile pf).dropWhile pg
              = (rest.dropWhile pg).takeWhile pf := by
          cases htwo : (rest.dropWhile pg).takeWhile pf with
          | nil => exact ⟨rfl, rfl⟩
          | cons y ys =>
            have hhead := takeWhile_eq_cons_head pf _ y ys htwo
            have hpgy : pg y = false := by
              cases ho : rest.dropWhile pg with
              | nil => rw [ho] at hhead; simp at hhead
              | cons b bs =>
                have hb := dropWhile_head_false pg rest b bs ho
                rw [ho] at hhead
                simp only [List.head?_cons, Option.some.injEq] at hhead
                exact hhead ▸ hb
            constructor
            · rw [List.takeWhile_cons, hpgy]; rfl
            · rw [List.dropWhile_cons, hpgy]; rfl
        have hnest : nestBySpan (h :: rest.takeWhile pf)
            = ({ h with children :=
                  h.children ++ nestBySpan (rest.takeWhile pg) } :
                OrgHeadline)
              :: nestBySpan ((rest.dropWhile pg).takeWhile pf) := by
          rw [nestBySpan]
          have h1 : (rest.takeWhile pf).takeWhile pg
              = rest.takeWhile pg ++ [] := by
            rw [htw, takeWhile_append_all pg _ _
              (fun x hx => List.mem_takeWhile_imp hx), hpgo.1]
          have h2 : (rest.takeWhile pf).dropWhile pg
              = (rest.dropWhile pg).takeWhile pf := by
            rw [htw, dropWhile_append_all pg _ _
              (fun x hx => List.mem_takeWhile_imp hx), hpgo.2]
          rw [h1, h2]
          simp
      -- run the two uses of the induction hypothesis
        simp only [processAll, List.foldl_cons]
        rw [hstep]
        have hfirst := ih rest hlen' ⟨h, h.title.level, []⟩ (f :: stack) roots
        simp only [processAll] at hfirst
        rw [hfirst]
        simp only [attachClosed]
        have hlen'' : (rest.dropWhile pg).length ≤ n :=
          le_trans (List.Sublist.length_le (List.dropWhile_sublist _)) hlen'
        have hsecond := ih (rest.dropWhile pg) hlen''
          ({ f with newChildren := f.newChildren ++
              [{ h with children :=
                  h.children ++ ([] ++ nestBySpan (rest.takeWhile pg)) }] })
          stack roots
        simp only [processAll] at hsecond
        rw [hsecond]
        have htwc : (h :: rest).takeWhile pf = h :: rest.takeWhile pf := by
          rw [List.takeWhile_cons, if_pos (by simpa [hpf] using hfl)]
        have hdwc : (h :: rest).dropWhile pf = rest.dropWhile pf := by
          rw [List.dropWhile_cons, if_pos (by simpa [hpf] using hfl)]
        rw [htwc, hdwc, hdw, hnest]
        simp
        rfl
      · -- the incoming headline closes `f`
        have hle : h.title.level ≤ f.level := by omega
        have htwc : (h :: rest).takeWhile
            (fun g => f.level < g.title.level) = [] := by
          rw [List.takeWhile_cons, if_neg (by simpa using hfl)]
        have hdwc : (h :: rest).dropWhile
            (fun g => f.level < g.title.level) = h :: rest := by
          rw [List.dropWhile_cons, if_neg (by simpa using hfl)]
        have hcl :
            ({ f.headline with children :=
                f.headline.children ++ (f.newChildren ++ nestBySpan []) } :
              OrgHeadline) = closeFrame f := by
          simp [closeFrame, nestBySpan]
        rw [htwc, hdwc, hcl]
        have hstep : stepH (f :: stack, roots) h
            = stepH (attachClosed stack roots (closeFrame f)) h := by
          simp only [stepH]
          rw [popGE_cons_ge _ _ _ _ hle]
        simp only [processAll, List.foldl_cons]
        rw [hstep]

/-- Helper: starting from an empty stack, the loop produces exactly the
specification-side forest appended to the roots already emitted. -/
theorem runC (n : Nat) : ∀ (hs : List OrgHeadline), hs.length ≤ n →
    ∀ (roots : List OrgHeadline),
    finishRun (processAll ([], roots) hs) = roots ++ nestBySpan hs := by
  induction n with
  | zero =>
    intro hs hlen roots
    have hnil : hs = [] := List.length_eq_zero.mp (Nat.le_zero.mp hlen)
    subst hnil
    simp [processAll, finishRun, popGE_nil, nestBySpan]
  | succ n ih =>
    intro hs hlen roots
    cases hs with
    | nil => simp [processAll, finishRun, popGE_nil, nestBySpan]
    | cons h rest =>
      have hlen' : rest.length ≤ n := by
        simpa using Nat.le_of_succ_le_succ hlen
      have hstep : stepH ([], roots) h
          = (⟨h, h.title.level, []⟩ :: [], roots) := by
        simp [stepH, popGE_nil]
      simp only [processAll, List.foldl_cons]
      rw [hstep]
      have hfirst := runB rest.length rest (le_refl _)
        ⟨h, h.title.level, []⟩ [] roots
      simp only [processAll] at hfirst
      rw [hfirst]
      simp only [attachClosed]
      have hlen'' : (rest.dropWhile
          (fun g => h.title.level < g.title.level)).length ≤ n :=
        le_trans (List.Sublist.length_le (List.dropWhile_sublist _)) hlen'
      have hsecond := ih (rest.dropWhile
          (fun g => h.title.level < g.title.level)) hlen''
        (roots ++ [{ h with children :=
          h.children ++ ([] ++ nestBySpan (rest.takeWhile
            (fun g => h.title.level < g.title.level))) }])
      simp only [processAll] at hsecond
      rw [hsecond, nestBySpan]
      simp

/-- Helper: the stack-based hierarchy builder computes exactly the
specification-side span recursion (nearest preceding strictly smaller
level becomes the parent). -/
theorem buildForest_eq_nestBySpan (hs : List OrgHeadline) :
    buildForest hs = nestBySpan hs := by
  have h := runC hs.length hs (le_refl _) []
  simpa [buildForest] using h

/-- C3 counterexample: on input levels `[1, 2, 3, 2, 1]` the first root
has two children (both level-2 headlines nest under the nearest preceding
level-1 headline), not exactly one as claimed. -/
theorem c3_counterexample_root0_has_two_children :
    ((build_headline_hierarchy demoLevels12321).head?.map
      (fun r => r.children.length)) = some 2 ∧
      ((build_headline_hierarchy demoLevels12321).head?.map
        (fun r => r.children.length)) ≠ some 1 := by
  constructor <;>
    simp [build_headline_hierarchy, buildForest, processAll, finishRun, stepH,
      popGE, closeFrame, attachClosed, demoLevels12321, mkFlat, mkTitle,
      OrgHeadline.make, generate_etags_recursively, generateEtagsChildren,
      generate_headline_etag, titleHashInput, sortProps]

/-- C3 amended: the hierarchy builder nests each headline under the
nearest preceding headline of strictly smaller level (roots when none) —
stated as equality with the specification-side span recursion — and on
levels `[1, 2, 3, 2, 1]` produces 2 roots where root 0 has exactly two
children, the first of which has one child and the second none, root 1
having no children; levels `[1, 3]` nest the level-3 headline as a direct
child of the level-1 headline (not a root, not an error). -/
theorem c3_hierarchy_nearest_smaller_parent :
    (∀ hs : List OrgHeadline,
        build_headline_hierarchy hs
          = (nestBySpan hs).map generate_etags_recursively) ∧
      (build_headline_hierarchy demoLevels12321).length = 2 ∧
      ((build_headline_hierarchy demoLevels12321).map
        (fun r => r.children.length)) = [2, 0] ∧
      ((build_headline_hierarchy demoLevels12321).head?.bind
        (fun r => r.children.head?.map (fun c => c.children.length)))
        = some 1 ∧
      ((build_headline_hierarchy demoLevels12321).head?.bind
        (fun r => (r.children.drop 1).head?.map (fun c => c.children.length)))
        = some 0 ∧
      (build_headline_hierarchy demoLevels13).length = 1 ∧
      ((build_headline_hierarchy demoLevels13).head?.map
        (fun r => r.children.length)) = some 1 ∧
      ((build_headline_hierarchy demoLevels13).head?.bind
        (fun r => r.children.head?.map (fun c => (c.id, c.children.length))))
        = some ("3".toList, 0) := by
  refine ⟨?_, ?_⟩
  · intro hs
    rw [build_headline_hierarchy, buildForest_eq_nestBySpan]
  · refine ⟨?_, ?_, ?_, ?_, ?_, ?_, ?_⟩ <;>
      simp [build_headline_hierarchy, buildForest, processAll, finishRun,
        stepH, popGE, closeFrame, attachClosed, demoLevels12321, demoLevels13,
        mkFlat, mkTitle, OrgHeadline.make, generate_etags_recursively,
        generateEtagsChildren, generate_headline_etag, titleHashInput,
        sortProps]

/-- Helper: the children part of the level invariant, element-wise. -/
theorem levelInvChildren_iff (lvl : Nat) (cs : List OrgHeadline) :
    levelInvChildren lvl cs = true
      ↔ ∀ c ∈ cs, lvl < c.title.level ∧ levelInvB c = true := by
  induction cs with
  | nil => simp [levelInvChildren]
  | cons c cs ih =>
    rw [levelInvChildren]
    constructor
    · intro h x hx
      simp only [Bool.and_eq_true, decide_eq_true_eq] at h
      rcases List.mem_cons.mp hx with hx | hx
      · exact hx ▸ ⟨h.1.1, h.1.2⟩
      · exact (ih.mp h.2) x hx
    · intro h
      have hc := h c (List.mem_cons_self c cs)
      simp only [Bool.and_eq_true, decide_eq_true_eq]
      exact ⟨⟨hc.1, hc.2⟩, ih.mpr (fun x hx => h x (List.mem_cons_of_mem c hx))⟩

/-- Helper: the etag pass changes no levels or nesting, so it preserves
the level invariant (size-bounded induction through the nested tree). -/
theorem levelInv_genEtags_all (n : Nat) :
    (∀ h : OrgHeadline, sizeOf h ≤ n →
        levelInvB (generate_etags_recursively h) = levelInvB h) ∧
      (∀ (lvl : Nat) (cs : List OrgHeadline), sizeOf cs ≤ n →
        levelInvChildren lvl (generateEtagsChildren cs)
          = levelInvChildren lvl cs) := by
  induction n with
  | zero =>
    constructor
    · intro h hle
      cases h
      simp at hle
    · intro lvl cs hle
      cases cs <;> simp at hle
  | succ n ih =>
    constructor
    · intro h hle
      cases h with
      | mk id did lvl t tg kw pr ct children props etag =>
        have hsz : sizeOf children ≤ n := by
          simp at hle
          omega
        simp only [generate_etags_recursively, levelInvB]
        exact ih.2 t.level children hsz
    · intro lvl cs hle
      cases cs with
      | nil => rfl
      | cons c rest =>
        have hszc : sizeOf c ≤ n := by
          simp at hle
          omega
        have hszr : sizeOf rest ≤ n := by
          simp at hle
          omega
        simp only [generateEtagsChildren, levelInvChildren]
        rw [ih.1 c hszc, ih.2 lvl rest hszr, genEtags_title]

/-- Helper: on flat input, every root of the specification-side forest
satisfies the level invariant, and its level is one of the input levels. -/
theorem nestBySpan_levelInv (n : Nat) : ∀ hs : List OrgHeadline,
    hs.length ≤ n → (∀ h ∈ hs, h.children = []) →
    ∀ r ∈ nestBySpan hs,
      levelInvB r = true ∧ ∃ x ∈ hs, r.title.level = x.title.level := by
  induction n with
  | zero =>
    intro hs hlen _ r hr
    have hnil : hs = [] := List.length_eq_zero.mp (Nat.le_zero.mp hlen)
    subst hnil
    rw [nestBySpan] at hr
    simp at hr
  | succ n ih =>
    intro hs hlen hflat r hr
    cases hs with
    | nil =>
      rw [nestBySpan] at hr
      simp at hr
    | cons h rest =>
      have hlen' : rest.length ≤ n := by
        simpa using Nat.le_of_succ_le_succ hlen
      have hinner : ∀ x ∈ rest.takeWhile
          (fun g => h.title.level < g.title.level), x.children = [] :=
        fun x hx => hflat x
          (List.mem_cons_of_mem h ((List.takeWhile_sublist _).subset hx))
      have houter : ∀ x ∈ rest.dropWhile
          (fun g => h.title.level < g.title.level), x.children = [] :=
        fun x hx => hflat x
          (List.mem_cons_of_mem h ((List.dropWhile_sublist _).subset hx))
      have hleni : (rest.takeWhile
          (fun g => h.title.level < g.title.level)).length ≤ n :=
        le_trans (List.Sublist.length_le (List.takeWhile_sublist _)) hlen'
      have hleno : (rest.dropWhile
          (fun g => h.title.level < g.title.level)).length ≤ n :=
        le_trans (List.Sublist.length_le (List.dropWhile_sublist _)) hlen'
      rw [nestBySpan] at hr
      rcases List.mem_cons.mp hr with hr | hr
      · subst hr
        constructor
        · cases h with
          | mk id did lvl t tg kw pr ct children props etag =>
            have hch : children = [] :=
              hflat _ (List.mem_cons_self _ _)
            subst hch
            simp only [levelInvB]
            rw [levelInvChildren_iff]
            intro c hc
            simp only [List.nil_append] at hc
            obtain ⟨hlc, x, hx, hlev⟩ :=
              (fun p => ⟨(ih _ hleni hinner c p).1,
                (ih _ hleni hinner c p).2⟩ :
                c ∈ nestBySpan (rest.takeWhile _) →
                  levelInvB c = true ∧
                    ∃ x ∈ rest.takeWhile _, c.title.level = x.title.level) hc
            refine ⟨?_, hlc⟩
            have := List.mem_takeWhile_imp hx
            simp only [decide_eq_true_eq] at this
            omega
        · exact ⟨h, List.mem_cons_self h rest, rfl⟩
      · obtain ⟨hinv, x, hx, hlev⟩ := ih _ hleno houter r hr
        exact ⟨hinv,
          ⟨x, List.mem_cons_of_mem h ((List.dropWhile_sublist _).subset hx),
            hlev⟩⟩

/-- C5: in the forest produced by the hierarchy builder from a flat input
sequence, every headline's children carry a strictly greater title level
than their parent, recursively. -/
theorem c5_parent_level_invariant :
    ∀ hs : List OrgHeadline, (∀ h ∈ hs, h.children = []) →
      ∀ r ∈ build_headline_hierarchy hs, levelInvB r = true := by
  intro hs hflat r hr
  rw [build_headline_hierarchy, buildForest_eq_nestBySpan] at hr
  rcases List.mem_map.mp hr with ⟨r', hr', he⟩
  have h1 := (nestBySpan_levelInv hs.length hs (le_refl _) hflat r' hr').1
  have h2 := (levelInv_genEtags_all (sizeOf r')).1 r' (le_refl _)
  rw [← he, h2, h1]

/-- Witness for C5 on the `[1, 2, 3, 2, 1]` input: every built root
satisfies the recursive level invariant. -/
theorem c5_parent_level_invariant_witness :
    (build_headline_hierarchy demoLevels12321).all levelInvB = true := by
  rw [List.all_eq_true]
  intro r hr
  refine c5_parent_level_invariant demoLevels12321 ?_ r hr
  intro h hh
  simp [demoLevels12321, mkFlat, mkTitle, OrgHeadline.make] at hh
  rcases hh with h1 | h1 | h1 | h1 | h1 <;> rw [h1]
